import Mathlib

/-!
Verification of the LSP proxy (`src/main.rs`): the incremental
Content-Length frame decoder (`LspMessageParser`), the JSON-lines log
encoding, the two forwarding channel loops (`stdin_task`, `stdout_task`)
and the supervisor race in `main`.

Rust byte buffers (`Vec<u8>`, `&[u8]`) are modelled as `List Nat` of byte
values; Rust `String`/`&str` values are modelled as `List Nat` of Unicode
scalar values (code points).  `String::from_utf8_lossy` is modelled by
`utf8LossyDecode` below, following the replacement-character behaviour of
the Rust standard library (one U+FFFD per maximal invalid subsequence,
per `Utf8Error::error_len`).
-/

set_option maxRecDepth 8000

namespace LspProxy

/-- Replacement character U+FFFD, inserted by lossy UTF-8 decoding. -/
def rc : Nat := 0xFFFD

/-- A UTF-8 continuation byte (`0x80..=0xBF`). -/
def isCont (b : Nat) : Bool := 0x80 ≤ b && b ≤ 0xBF

/-- Allowed second byte of a three-byte sequence, given the leader
(`0xE0` needs `0xA0..=0xBF`, `0xED` needs `0x80..=0x9F`, the rest a plain
continuation byte), as in Rust's `run_utf8_validation`. -/
def cont3 (b c : Nat) : Bool :=
  if b = 0xE0 then 0xA0 ≤ c && c ≤ 0xBF
  else if b = 0xED then 0x80 ≤ c && c ≤ 0x9F
  else isCont c

/-- Allowed second byte of a four-byte sequence, given the leader
(`0xF0` needs `0x90..=0xBF`, `0xF4` needs `0x80..=0x8F`). -/
def cont4 (b c : Nat) : Bool :=
  if b = 0xF0 then 0x90 ≤ c && c ≤ 0xBF
  else if b = 0xF4 then 0x80 ≤ c && c ≤ 0x8F
  else isCont c

/-- `String::from_utf8_lossy`: bytes to Unicode scalar values, one U+FFFD
per maximal invalid subsequence (Rust's `error_len` semantics: an invalid
leader or out-of-range second byte invalidates one byte, a bad later
continuation byte invalidates the bytes before it in its sequence, and a
truncated final sequence becomes a single U+FFFD). -/
def utf8LossyDecode : List Nat → List Nat
  | [] => []
  | b :: rest =>
    if b < 0x80 then b :: utf8LossyDecode rest
    else if b < 0xC2 then rc :: utf8LossyDecode rest
    else if b ≤ 0xDF then
      match rest with
      | [] => [rc]
      | c :: r2 =>
        if isCont c then ((b - 0xC0) * 0x40 + (c - 0x80)) :: utf8LossyDecode r2
        else rc :: utf8LossyDecode (c :: r2)
    else if b ≤ 0xEF then
      match rest with
      | [] => [rc]
      | c :: r2 =>
        if cont3 b c then
          match r2 with
          | [] => [rc]
          | d :: r3 =>
            if isCont d then
              ((b - 0xE0) * 0x1000 + (c - 0x80) * 0x40 + (d - 0x80)) :: utf8LossyDecode r3
            else rc :: utf8LossyDecode (d :: r3)
        else rc :: utf8LossyDecode (c :: r2)
    else if b ≤ 0xF4 then
      match rest with
      | [] => [rc]
      | c :: r2 =>
        if cont4 b c then
          match r2 with
          | [] => [rc]
          | d :: r3 =>
            if isCont d then
              match r3 with
              | [] => [rc]
              | e :: r4 =>
                if isCont e then
                  ((b - 0xF0) * 0x40000 + (c - 0x80) * 0x1000 + (d - 0x80) * 0x40 + (e - 0x80))
                    :: utf8LossyDecode r4
                else rc :: utf8LossyDecode (e :: r4)
            else rc :: utf8LossyDecode (d :: r3)
        else rc :: utf8LossyDecode (c :: r2)
    else rc :: utf8LossyDecode rest

/-- UTF-8 encoding of one Unicode scalar value. -/
def utf8EncodeChar (c : Nat) : List Nat :=
  if c < 0x80 then [c]
  else if c < 0x800 then [0xC0 + c / 0x40, 0x80 + c % 0x40]
  else if c < 0x10000 then [0xE0 + c / 0x1000, 0x80 + c / 0x40 % 0x40, 0x80 + c % 0x40]
  else [0xF0 + c / 0x40000, 0x80 + c / 0x1000 % 0x40, 0x80 + c / 0x40 % 0x40, 0x80 + c % 0x40]

/-- UTF-8 encoding of a string (list of scalar values), the byte image
`str::as_bytes` of a Rust string. -/
def utf8Encode (s : List Nat) : List Nat := (s.map utf8EncodeChar).flatten

/-- A Unicode scalar value: any code point outside the surrogate range,
the invariant of a Rust `char`. -/
def IsScalar (c : Nat) : Prop := c < 0xD800 ∨ (0xE000 ≤ c ∧ c < 0x110000)

/-! ### The frame decoder: `LspMessageParser` (`src/main.rs` lines 70-126)

The parser struct has a single field `buffer: Vec<u8>`, modelled as a bare
`List Nat` of bytes.  `try_parse_message` takes `&mut self`; it is
modelled as a function from the buffer to the optional extracted message
together with the buffer after the call. -/

/-- `find_header_end` (line 114-116):
`self.buffer.windows(4).position(|w| w == b"\r\n\r\n")`, the index of the
first four-byte window equal to `\r\n\r\n` (only complete windows count,
so a partial separator at the end of the buffer does not match). -/
def findHeaderEnd : List Nat → Option Nat
  | [] => none
  | b :: rest =>
    if b = 13 ∧ rest.take 3 = [10, 13, 10] then some 0
    else (findHeaderEnd rest).map (fun n => n + 1)

/-- ASCII decimal digit, `u8::is_ascii_digit`. -/
def isDig (c : Nat) : Bool := 0x30 ≤ c && c ≤ 0x39

/-- `char::is_whitespace`: the Unicode White_Space property, used by
`str::trim`. -/
def isWs (c : Nat) : Bool :=
  c = 0x09 || c = 0x0A || c = 0x0B || c = 0x0C || c = 0x0D || c = 0x20 ||
  c = 0x85 || c = 0xA0 || c = 0x1680 ||
  (0x2000 ≤ c && c ≤ 0x200A) ||
  c = 0x2028 || c = 0x2029 || c = 0x202F || c = 0x205F || c = 0x3000

/-- `str::trim`: drop whitespace from both ends. -/
def trimWs (s : List Nat) : List Nat :=
  ((s.dropWhile isWs).reverse.dropWhile isWs).reverse

/-- `str::parse::<usize>` (`usize` is 64-bit on the targets the proxy
builds for): an optional leading `+`, then one or more ASCII digits whose
value fits in a `u64`; anything else is an error.  Overflow during
accumulation in `from_str_radix` is equivalent to the final value being
`≥ 2^64` since digits only increase it. -/
def parseUsize (s : List Nat) : Option Nat :=
  let t := match s with
    | 0x2B :: r => r
    | _ => s
  if t = [] then none
  else if t.all isDig then
    let n := t.foldl (fun acc d => acc * 10 + (d - 0x30)) 0
    if n < 2 ^ 64 then some n else none
  else none

/-- `str::lines`, accumulator-style: lines are terminated by `\n`, with a
`\r` immediately before the terminator stripped; a final fragment without
a terminator is yielded as-is (a bare trailing `\r` is kept), and a final
empty fragment is not yielded.  `acc` holds the current line reversed. -/
def rustLinesGo (acc : List Nat) : List Nat → List (List Nat)
  | [] => if acc = [] then [] else [acc.reverse]
  | c :: r =>
    if c = 10 then
      (match acc with
       | 13 :: a => a.reverse
       | _ => acc.reverse) :: rustLinesGo [] r
    else rustLinesGo (c :: acc) r

/-- `str::lines` on a decoded header block. -/
def rustLines (s : List Nat) : List (List Nat) := rustLinesGo [] s

/-- `str::strip_prefix` (by code points). -/
def dropPre : List Nat → List Nat → Option (List Nat)
  | [], s => some s
  | _ :: _, [] => none
  | p :: ps, c :: cs => if p = c then dropPre ps cs else none

/-- The code points of `"Content-Length:"`. -/
def clPre : List Nat := [67, 111, 110, 116, 101, 110, 116, 45, 76, 101, 110, 103, 116, 104, 58]

/-- `parse_content_length` (lines 118-125): scan the decoded header text
line by line; the loop returns at the first line starting with
`Content-Length:`, with the remainder trimmed and parsed as `usize`
(`.ok()` turns a parse failure into `None` --- later lines are never
consulted). -/
def parseContentLength (headers : List Nat) : Option Nat :=
  match (rustLines headers).find? (fun l => (dropPre clPre l).isSome) with
  | some l => (dropPre clPre l).bind (fun v => parseUsize (trimWs v))
  | none => none

/-- The pair returned by `try_parse_message`: the complete raw frame
(headers + separator + body bytes) and the body decoded as text by
`String::from_utf8_lossy(...).to_string()`. -/
structure Msg where
  completeMessage : List Nat
  jsonPayload : List Nat
deriving Repr, DecidableEq

/-- `add_data` (lines 81-83): `self.buffer.extend_from_slice(data)`. -/
def addData (buffer data : List Nat) : List Nat := buffer ++ data

/-- `try_parse_message` (lines 87-112), as a function of the `&mut self`
buffer: the optional extracted message, and the buffer after the call
(drained by `body_end` bytes exactly when a message is returned). -/
def tryParseMessage (buffer : List Nat) : Option Msg × List Nat :=
  match findHeaderEnd buffer with
  | none => (none, buffer)
  | some headerEnd =>
    match parseContentLength (utf8LossyDecode (buffer.take headerEnd)) with
    | none => (none, buffer)
    | some contentLength =>
      -- body_start = headerEnd + 4 (skip \r\n\r\n); body_end = body_start + contentLength
      if buffer.length < headerEnd + 4 + contentLength then (none, buffer)
      else
        (some ⟨buffer.take (headerEnd + 4 + contentLength),
               utf8LossyDecode ((buffer.take (headerEnd + 4 + contentLength)).drop (headerEnd + 4))⟩,
         buffer.drop (headerEnd + 4 + contentLength))

/-- The `while let Some((_, payload)) = parser.try_parse_message()` drain
loop of the channel tasks, with explicit fuel (each successful parse
strictly shrinks the buffer, so `buffer.length + 1` fuel always reaches
the `None` case; see `drainGo_fuel_irrel`). -/
def drainGo : Nat → List Nat → List Msg × List Nat
  | 0, buf => ([], buf)
  | fuel + 1, buf =>
    match tryParseMessage buf with
    | (none, buf2) => ([], buf2)
    | (some m, buf2) =>
      let p := drainGo fuel buf2
      (m :: p.1, p.2)

/-- Drain every complete message currently in the buffer. -/
def drainMessages (buf : List Nat) : List Msg × List Nat :=
  drainGo (buf.length + 1) buf

/-- Feed chunks one at a time (`add_data`, then drain all available
messages), as the channel tasks do in JSON-lines mode; returns all
extracted messages in order and the final buffer. -/
def feedChunks : List Nat → List (List Nat) → List Msg × List Nat
  | buf, [] => ([], buf)
  | buf, c :: cs =>
    let p := drainMessages (addData buf c)
    let q := feedChunks p.2 cs
    (p.1 ++ q.1, q.2)

/-! ### Decimal formatting and `format_lsp_message` (lines 38-41)

`format!("{}", n)` for an unsigned integer prints its decimal digits. -/

/-- Decimal digit characters (most significant first) of `n`, prepended
to `acc`; fuel-structural (`n + 1` fuel always suffices since `n / 10`
shrinks). -/
def digitsAux : Nat → Nat → List Nat → List Nat
  | 0, _, acc => acc
  | fuel + 1, n, acc =>
    if n < 10 then (0x30 + n) :: acc
    else digitsAux fuel (n / 10) ((0x30 + n % 10) :: acc)

/-- The decimal digit characters of `n`, as printed by `format!`. -/
def natDigits (n : Nat) : List Nat := digitsAux (n + 1) n []

/-- The code points of a Lean string literal, for ASCII constants. -/
def ascii (s : String) : List Nat := s.data.map Char.toNat

/-- `format_lsp_message` (lines 38-41), at the string (code point) level:
`format!("Content-Length: {}\r\n\r\n{}", json.len(), json)`, where
`json.len()` is the byte length of the UTF-8 string. -/
def formatLspMessage (json : List Nat) : List Nat :=
  ascii "Content-Length: " ++ natDigits (utf8Encode json).length ++ [13, 10, 13, 10] ++ json

/-! ### The `serde_json` value model

The channel tasks parse each message body with
`serde_json::from_str::<serde_json::Value>` and re-serialize with
`serde_json::to_string`.  The model below follows the `serde_json`
deserializer and compact serializer:

* values are null, booleans, numbers, strings, arrays and objects;
* objects are `BTreeMap<String, Value>` (the default `preserve_order`-off
  map): members are kept sorted by key in the lexicographic order of the
  keys' UTF-8 bytes, and a duplicate key keeps the first key but takes
  the later value, exactly as repeated `BTreeMap::insert`;
* numbers are modelled as arbitrary-precision integers restricted to the
  ranges `serde_json` decodes exactly (`u64` for non-negatives, down to
  `i64::MIN` for negatives).  Number literals with a fraction or exponent
  part, or integer literals out of those ranges, are decoded by
  `serde_json` into IEEE-754 doubles; floating point is outside this
  embedding, and the model parser reports those literals as unparsable.
  All theorems about JSON parse results are relative to this model.
* string parsing follows `serde_json`: the escapes
  `\" \\ \/ \b \f \n \r \t \uXXXX` (with surrogate pairs combined and
  lone surrogates rejected), and a bare control character is an error;
  serialization escapes `" \` and control characters (`\b \t \n \f \r`,
  otherwise `\u00xx` with lowercase hex) and nothing else. -/

mutual

inductive Json where
  | null
  | bool (b : Bool)
  | num (n : Int)
  | str (s : List Nat)
  | arr (elems : JsonList)
  | obj (members : JsonMembers)

inductive JsonList where
  | nil
  | cons (hd : Json) (tl : JsonList)

inductive JsonMembers where
  | nil
  | cons (key : List Nat) (val : Json) (tl : JsonMembers)

end

/-- Lexicographic order on byte strings, the `Ord` instance `BTreeMap`
compares `String` keys with (strings compare as their UTF-8 bytes). -/
def bytesLt : List Nat → List Nat → Bool
  | [], [] => false
  | [], _ :: _ => true
  | _ :: _, [] => false
  | a :: as, b :: bs => if a < b then true else if b < a then false else bytesLt as bs

/-- `BTreeMap::insert` on the sorted member list: a key equal (as UTF-8
bytes) to an existing one replaces its value and keeps the stored key;
otherwise the pair goes in at its sorted position. -/
def insertKV (k : List Nat) (v : Json) : JsonMembers → JsonMembers
  | .nil => .cons k v .nil
  | .cons k2 v2 tl =>
    if bytesLt (utf8Encode k) (utf8Encode k2) then .cons k v (.cons k2 v2 tl)
    else if utf8Encode k = utf8Encode k2 then .cons k2 v tl
    else .cons k2 v2 (insertKV k v tl)

/-- Concatenation of member lists. -/
def memAppend : JsonMembers → JsonMembers → JsonMembers
  | .nil, ys => ys
  | .cons k v tl, ys => .cons k v (memAppend tl ys)

/-- Every key of the member list is strictly above `k` in byte order. -/
def keysAbove (k : List Nat) : JsonMembers → Prop
  | .nil => True
  | .cons k2 _ tl => bytesLt (utf8Encode k) (utf8Encode k2) = true ∧ keysAbove k tl

/-- Every key of the member list is strictly below `k` in byte order. -/
def keysBelow (k : List Nat) : JsonMembers → Prop
  | .nil => True
  | .cons k2 _ tl => bytesLt (utf8Encode k2) (utf8Encode k) = true ∧ keysBelow k tl

/-- The `BTreeMap` invariant: member keys strictly ascending. -/
def memSorted : JsonMembers → Prop
  | .nil => True
  | .cons k _ tl => keysAbove k tl ∧ memSorted tl

mutual

/-- Values producible by the `serde_json` deserializer: numbers in the
exactly-decoded integer ranges, object member lists sorted. -/
def JsonWF : Json → Prop
  | .null => True
  | .bool _ => True
  | .num n => -(2 ^ 63 : Int) ≤ n ∧ n < 2 ^ 64
  | .str _ => True
  | .arr xs => JsonListWF xs
  | .obj ms => memSorted ms ∧ JsonMembersWF ms

def JsonListWF : JsonList → Prop
  | .nil => True
  | .cons x tl => JsonWF x ∧ JsonListWF tl

def JsonMembersWF : JsonMembers → Prop
  | .nil => True
  | .cons _ v tl => JsonWF v ∧ JsonMembersWF tl

end

/-- Lowercase hexadecimal digit character, as in `serde_json`'s
`\u00xx` escapes. -/
def hexDigit (n : Nat) : Nat := if n < 10 then 0x30 + n else 0x57 + n

/-- `serde_json`'s string escaping of one character: `"` and `\` escaped,
control characters as `\b \t \n \f \r` or `\u00xx`, everything else
verbatim. -/
def escapeChar (c : Nat) : List Nat :=
  if c = 0x22 then [0x5C, 0x22]
  else if c = 0x5C then [0x5C, 0x5C]
  else if c = 0x08 then [0x5C, 0x62]
  else if c = 0x09 then [0x5C, 0x74]
  else if c = 0x0A then [0x5C, 0x6E]
  else if c = 0x0C then [0x5C, 0x66]
  else if c = 0x0D then [0x5C, 0x72]
  else if c < 0x20 then [0x5C, 0x75, 0x30, 0x30, hexDigit (c / 16), hexDigit (c % 16)]
  else [c]

/-- Serialization of a JSON string: quote, escaped characters, quote. -/
def serStr (s : List Nat) : List Nat :=
  0x22 :: ((s.map escapeChar).flatten ++ [0x22])

/-- Serialization of a JSON (integer) number. -/
def serNum (n : Int) : List Nat :=
  if n < 0 then 0x2D :: natDigits n.natAbs else natDigits n.toNat

mutual

/-- `serde_json::to_string`: the canonical compact form. -/
def serJson : Json → List Nat
  | .null => [0x6E, 0x75, 0x6C, 0x6C]
  | .bool true => [0x74, 0x72, 0x75, 0x65]
  | .bool false => [0x66, 0x61, 0x6C, 0x73, 0x65]
  | .num n => serNum n
  | .str s => serStr s
  | .arr xs => 0x5B :: (serList xs ++ [0x5D])
  | .obj ms => 0x7B :: (serMembers ms ++ [0x7D])

def serList : JsonList → List Nat
  | .nil => []
  | .cons x .nil => serJson x
  | .cons x (.cons y tl) => serJson x ++ 0x2C :: serList (.cons y tl)

def serMembers : JsonMembers → List Nat
  | .nil => []
  | .cons k v .nil => serStr k ++ 0x3A :: serJson v
  | .cons k v (.cons k2 v2 tl) =>
    serStr k ++ 0x3A :: serJson v ++ 0x2C :: serMembers (.cons k2 v2 tl)

end

/-- `serde_json`'s `parse_whitespace`: skip space, tab, newline, carriage
return. -/
def skipJWs : List Nat → List Nat
  | [] => []
  | c :: r => if c = 0x20 ∨ c = 0x09 ∨ c = 0x0A ∨ c = 0x0D then skipJWs r else c :: r

/-- Hexadecimal digit value (`0-9`, `a-f`, `A-F`). -/
def hexVal (c : Nat) : Option Nat :=
  if 0x30 ≤ c ∧ c ≤ 0x39 then some (c - 0x30)
  else if 0x61 ≤ c ∧ c ≤ 0x66 then some (c - 0x61 + 10)
  else if 0x41 ≤ c ∧ c ≤ 0x46 then some (c - 0x41 + 10)
  else none

/-- The single-character escapes accepted by `serde_json`. -/
def escMap (c : Nat) : Option Nat :=
  if c = 0x22 then some 0x22
  else if c = 0x5C then some 0x5C
  else if c = 0x2F then some 0x2F
  else if c = 0x62 then some 0x08
  else if c = 0x66 then some 0x0C
  else if c = 0x6E then some 0x0A
  else if c = 0x72 then some 0x0D
  else if c = 0x74 then some 0x09
  else none

/-- `serde_json` string body parsing, after the opening quote: unescape
until the closing quote; `\uXXXX` high surrogates must pair with a
following low `\uXXXX`, lone surrogates and bare control characters are
errors. -/
def parseJStr : List Nat → Option (List Nat × List Nat)
  | [] => none
  | 0x22 :: rest => some ([], rest)
  | 0x5C :: rest =>
    match rest with
    | 0x75 :: a :: b :: c :: d :: r2 =>
      (match hexVal a, hexVal b, hexVal c, hexVal d with
       | some va, some vb, some vc, some vd =>
         if ((va * 16 + vb) * 16 + vc) * 16 + vd < 0xD800 ∨
             0xE000 ≤ ((va * 16 + vb) * 16 + vc) * 16 + vd then
           match parseJStr r2 with
           | some (s, r3) => some ((((va * 16 + vb) * 16 + vc) * 16 + vd) :: s, r3)
           | none => none
         else if ((va * 16 + vb) * 16 + vc) * 16 + vd < 0xDC00 then
           match r2 with
           | 0x5C :: 0x75 :: a2 :: b2 :: c2 :: d2 :: r3 =>
             (match hexVal a2, hexVal b2, hexVal c2, hexVal d2 with
              | some ve, some vf, some vg, some vh =>
                if 0xDC00 ≤ ((ve * 16 + vf) * 16 + vg) * 16 + vh ∧
                    ((ve * 16 + vf) * 16 + vg) * 16 + vh ≤ 0xDFFF then
                  match parseJStr r3 with
                  | some (s, r4) =>
                    some ((0x10000 + (((va * 16 + vb) * 16 + vc) * 16 + vd - 0xD800) * 0x400 +
                           (((ve * 16 + vf) * 16 + vg) * 16 + vh - 0xDC00)) :: s, r4)
                  | none => none
                else none
              | _, _, _, _ => none)
           | _ => none
         else none
       | _, _, _, _ => none)
    | e :: r2 =>
      (match escMap e with
       | some ch =>
         match parseJStr r2 with
         | some (s, r3) => some (ch :: s, r3)
         | none => none
       | none => none)
    | [] => none
  | c :: rest =>
    if c < 0x20 then none
    else
      match parseJStr rest with
      | some (s, r2) => some (c :: s, r2)
      | none => none

/-- Numeric value of a digit run. -/
def digitsVal (ds : List Nat) : Nat := ds.foldl (fun acc d => acc * 10 + (d - 0x30)) 0

/-- After the integer part of a number literal: a following `.`, `e` or
`E` puts `serde_json` on the floating-point path, which is outside this
model. -/
def numTail (v : Nat) (rest : List Nat) : Option (Nat × List Nat) :=
  match rest with
  | c :: _ => if c = 0x2E ∨ c = 0x65 ∨ c = 0x45 then none else some (v, rest)
  | [] => some (v, rest)

/-- Unsigned integer part of a number literal: `0` (with no digit after),
or a nonzero digit followed by a digit run, as in `serde_json`'s
`parse_integer`. -/
def parseNumMag : List Nat → Option (Nat × List Nat)
  | [] => none
  | c :: r =>
    if c = 0x30 then
      match r with
      | d :: _ => if isDig d then none else numTail 0 r
      | [] => numTail 0 []
    else if isDig c then
      numTail (digitsVal (c :: r.takeWhile isDig)) (r.dropWhile isDig)
    else none

/-- `serde_json`'s number parsing restricted to the exactly-decoded
integer ranges: non-negative values below `2^64`, negatives of magnitude
at most `2^63`; anything else goes to the (unmodelled) `f64` path. -/
def parseJNum (cs : List Nat) : Option (Int × List Nat) :=
  match cs with
  | 0x2D :: r =>
    (match parseNumMag r with
     | some (v, rest) => if v ≤ 2 ^ 63 then some (-(v : Int), rest) else none
     | none => none)
  | _ =>
    match parseNumMag cs with
    | some (v, rest) => if v < 2 ^ 64 then some ((v : Int), rest) else none
    | none => none

mutual

/-- `serde_json`'s `deserialize_any` for `Value`, fuel-structural: skip
whitespace, dispatch on the first character.  One fuel unit is spent per
recursive step, and `input.length + 1` always suffices on inputs the
deserializer accepts (each nesting level consumes input). -/
def parseVal : Nat → List Nat → Option (Json × List Nat)
  | 0, _ => none
  | fuel + 1, cs =>
    match skipJWs cs with
    | [] => none
    | c :: r =>
      if c = 0x6E then
        match r with
        | 0x75 :: 0x6C :: 0x6C :: r2 => some (.null, r2)
        | _ => none
      else if c = 0x74 then
        match r with
        | 0x72 :: 0x75 :: 0x65 :: r2 => some (.bool true, r2)
        | _ => none
      else if c = 0x66 then
        match r with
        | 0x61 :: 0x6C :: 0x73 :: 0x65 :: r2 => some (.bool false, r2)
        | _ => none
      else if c = 0x22 then
        match parseJStr r with
        | some (s, r2) => some (.str s, r2)
        | none => none
      else if c = 0x5B then
        match skipJWs r with
        | 0x5D :: r2 => some (.arr .nil, r2)
        | r2 =>
          match parseElems fuel r2 with
          | some (xs, r3) => some (.arr xs, r3)
          | none => none
      else if c = 0x7B then
        match skipJWs r with
        | 0x7D :: r2 => some (.obj .nil, r2)
        | r2 =>
          match parseMembers fuel JsonMembers.nil r2 with
          | some (ms, r3) => some (.obj ms, r3)
          | none => none
      else if c = 0x2D ∨ isDig c then
        match parseJNum (c :: r) with
        | some (n, r2) => some (.num n, r2)
        | none => none
      else none

/-- One-or-more comma-separated array elements, ending at `]`; a comma
directly before `]` is a trailing-comma error, as in `serde_json`'s
`SeqAccess`. -/
def parseElems : Nat → List Nat → Option (JsonList × List Nat)
  | 0, _ => none
  | fuel + 1, cs =>
    match parseVal fuel cs with
    | none => none
    | some (v, r) =>
      match skipJWs r with
      | 0x2C :: r2 =>
        (match skipJWs r2 with
         | 0x5D :: _ => none
         | _ =>
           match parseElems fuel r2 with
           | some (xs, r3) => some (.cons v xs, r3)
           | none => none)
      | 0x5D :: r2 => some (.cons v .nil, r2)
      | _ => none

/-- One-or-more object members, ending at `}`, inserted into the
accumulated `BTreeMap` in order of appearance (a later duplicate key
overwrites the value); keys must be strings and a comma directly before
`}` is a trailing-comma error, as in `serde_json`'s `MapAccess`. -/
def parseMembers : Nat → JsonMembers → List Nat → Option (JsonMembers × List Nat)
  | 0, _, _ => none
  | fuel + 1, acc, cs =>
    match skipJWs cs with
    | 0x22 :: r =>
      (match parseJStr r with
       | none => none
       | some (k, r1) =>
         match skipJWs r1 with
         | 0x3A :: r2 =>
           (match parseVal fuel r2 with
            | none => none
            | some (v, r3) =>
              match skipJWs r3 with
              | 0x2C :: r4 =>
                (match skipJWs r4 with
                 | 0x7D :: _ => none
                 | _ => parseMembers fuel (insertKV k v acc) r4)
              | 0x7D :: r4 => some (insertKV k v acc, r4)
              | _ => none)
         | _ => none)
    | _ => none

end

/-- `serde_json::from_str::<Value>`: parse one value, then only
whitespace may remain. -/
def jsonParse (s : List Nat) : Option Json :=
  match parseVal (s.length + 1) s with
  | some (v, r) => if skipJWs r = [] then some v else none
  | none => none

/-- A remainder that cannot extend a serialized number: empty, or headed
by a character that is no digit and none of `.`, `e`, `E` (every JSON
delimiter and whitespace qualifies). -/
def numDelim : List Nat → Prop
  | [] => True
  | c :: _ => isDig c = false ∧ c ≠ 0x2E ∧ c ≠ 0x65 ∧ c ≠ 0x45

/-! ### The channel loops: `stdin_task` (lines 227-292) and
`stdout_task` (lines 295-362)

The two tasks run the same read/log/forward loop (the code is duplicated
per task, differing only in its endpoints), modelled once by
`runChannel`.  Reads are modelled as a schedule of outcomes (`ReadEvent`:
a chunk with the success of the destination `write_all`/`flush` for this
iteration, EOF, or a read error); log-sink `write_all` outcomes come from
the oracle `logOk`, indexed by a running count of log writes.  The run
records the chunks read, the successful operations on the forwarding
destination, the `write_all` calls issued on the log sink, and the
`eprintln` diagnostics. -/

/-- An operation on a byte sink. -/
inductive SinkOp where
  | write (bytes : List Nat)
  | flush
deriving Repr, DecidableEq

/-- The `eprintln` diagnostics a channel loop can emit. -/
inductive Diag where
  | jsonParseFail
  | logWriteFail
  | destWriteFail
  | destFlushFail
  | readFail
deriving Repr, DecidableEq

/-- One iteration's read outcome, with the destination-write outcomes
scripted for a data chunk. -/
inductive ReadEvent where
  | data (chunk : List Nat) (destOk : Bool) (flushOk : Bool)
  | eof
  | readErr
deriving Repr, DecidableEq

/-- Per-channel mutable state: the parser buffer and the running index
into the log-write oracle. -/
structure ChanSt where
  buffer : List Nat
  logIdx : Nat
deriving Repr, DecidableEq

/-- What a channel run observably did. -/
structure RunResult where
  reads : List (List Nat)
  destOps : List SinkOp
  logOps : List SinkOp
  diags : List Diag
  buffer : List Nat
deriving Repr, DecidableEq

/-- The log line written for one extracted message in JSON-lines mode:
`format!("{}\n", serde_json::to_string(&value))` on a successful parse
(`to_string` on a `Value` never fails), or the fallback
`format!("{}\n", json_payload)` on a parse error. -/
def logLine (m : Msg) : List Nat :=
  match jsonParse m.jsonPayload with
  | some v => serJson v ++ [10]
  | none => m.jsonPayload ++ [10]

/-- The inner `while let` of a JSON-lines iteration: one log `write_all`
per extracted message, an `eprintln` on JSON parse failure, an `eprintln`
on log-write failure; returns the log ops, the diagnostics and the next
oracle index. -/
def logMsgs (logOk : Nat → Bool) : Nat → List Msg → List SinkOp × List Diag × Nat
  | idx, [] => ([], [], idx)
  | idx, m :: ms =>
    let p := logMsgs logOk (idx + 1) ms
    (SinkOp.write (utf8Encode (logLine m)) :: p.1,
     (match jsonParse m.jsonPayload with
      | some _ => []
      | none => [Diag.jsonParseFail]) ++
       (if logOk idx then [] else [Diag.logWriteFail]) ++ p.2.1,
     p.2.2)

/-- The channel read/log/forward loop, driven by the schedule of read
outcomes.  `jsonLines` is the mode flag; a data chunk is logged (raw, or
by draining the frame decoder), then forwarded with `write_all` and
`flush`; a destination failure breaks the loop, a log failure does not;
EOF or a read error breaks the loop. -/
def runChannel (jsonLines : Bool) (logOk : Nat → Bool) :
    ChanSt → List ReadEvent → RunResult
  | st, [] => ⟨[], [], [], [], st.buffer⟩
  | st, ReadEvent.eof :: _ => ⟨[], [], [], [], st.buffer⟩
  | st, ReadEvent.readErr :: _ => ⟨[], [], [], [Diag.readFail], st.buffer⟩
  | st, ReadEvent.data chunk destOk flushOk :: evs =>
    let log : List SinkOp × List Diag × ChanSt :=
      if jsonLines then
        let p := logMsgs logOk st.logIdx (drainMessages (addData st.buffer chunk)).1
        (p.1, p.2.1, ⟨(drainMessages (addData st.buffer chunk)).2, p.2.2⟩)
      else
        ([SinkOp.write chunk],
         if logOk st.logIdx then [] else [Diag.logWriteFail],
         ⟨st.buffer, st.logIdx + 1⟩)
    if destOk then
      if flushOk then
        let r := runChannel jsonLines logOk log.2.2 evs
        ⟨chunk :: r.reads, SinkOp.write chunk :: SinkOp.flush :: r.destOps,
         log.1 ++ r.logOps, log.2.1 ++ r.diags, r.buffer⟩
      else
        ⟨[chunk], [SinkOp.write chunk], log.1, log.2.1 ++ [Diag.destFlushFail], log.2.2.buffer⟩
    else
      ⟨[chunk], [], log.1, log.2.1 ++ [Diag.destWriteFail], log.2.2.buffer⟩

/-- The bytes successfully written to a sink, concatenated. -/
def sinkBytes (ops : List SinkOp) : List Nat :=
  (ops.filterMap (fun op => match op with
    | SinkOp.write bs => some bs
    | SinkOp.flush => none)).flatten

/-- A data event whose destination write and flush both succeed. -/
def eventOk : ReadEvent → Prop
  | ReadEvent.data _ destOk flushOk => destOk = true ∧ flushOk = true
  | _ => True

/-- The chunks of the leading run of data events (what the loop reads
before the first EOF / read error, when no destination failure stops it
earlier). -/
def dataChunks : List ReadEvent → List (List Nat)
  | ReadEvent.data chunk _ _ :: evs => chunk :: dataChunks evs
  | _ => []

/-- Every `write` in the list is followed, later in the list, by a
`flush` (the property claimed of log sinks). -/
def everyWriteFlushed : List SinkOp → Bool
  | [] => true
  | SinkOp.write _ :: rest => rest.contains SinkOp.flush && everyWriteFlushed rest
  | SinkOp.flush :: rest => everyWriteFlushed rest

/-! ### The supervisor race (`main`, lines 394-419)

`tokio::select!` races the three channel tasks against `child.wait()`.
A child-exit win calls `std::process::exit(status.code().unwrap_or(1))`
(`.code()` is `None` when the child was killed by a signal), or
`std::process::exit(1)` if the wait itself failed; a channel win logs
which task finished and falls through, and `main` returns `Ok(())`, so
the process exits with code 0.  `ExitStatus` is modelled as
`Option Int` (the exit code when one exists), a failed wait as
`Except.error`. -/

/-- Which of the four raced operations completed first. -/
inductive RaceWinner where
  | stdinDone
  | stdoutDone
  | stderrDone
  | childExit (status : Except Unit (Option Int))
deriving Repr

/-- The process exit code produced by the `tokio::select!` in `main`. -/
def mainExitCode : RaceWinner → Int
  | RaceWinner.childExit (Except.ok st) =>
    match st with
    | some code => code
    | none => 1
  | RaceWinner.childExit (Except.error _) => 1
  | RaceWinner.stdinDone => 0
  | RaceWinner.stdoutDone => 0
  | RaceWinner.stderrDone => 0

/-! ## Theorems -/

/-! ### UTF-8 lemmas -/

theorem isCont_iff (b : Nat) : isCont b = true ↔ 0x80 ≤ b ∧ b ≤ 0xBF := by
  simp [isCont]

theorem utf8LossyDecode_nil : utf8LossyDecode [] = [] := rfl

theorem utf8LossyDecode_cons (b : Nat) (rest : List Nat) :
    utf8LossyDecode (b :: rest) =
    if b < 0x80 then b :: utf8LossyDecode rest
    else if b < 0xC2 then rc :: utf8LossyDecode rest
    else if b ≤ 0xDF then
      match rest with
      | [] => [rc]
      | c :: r2 =>
        if isCont c then ((b - 0xC0) * 0x40 + (c - 0x80)) :: utf8LossyDecode r2
        else rc :: utf8LossyDecode (c :: r2)
    else if b ≤ 0xEF then
      match rest with
      | [] => [rc]
      | c :: r2 =>
        if cont3 b c then
          match r2 with
          | [] => [rc]
          | d :: r3 =>
            if isCont d then
              ((b - 0xE0) * 0x1000 + (c - 0x80) * 0x40 + (d - 0x80)) :: utf8LossyDecode r3
            else rc :: utf8LossyDecode (d :: r3)
        else rc :: utf8LossyDecode (c :: r2)
    else if b ≤ 0xF4 then
      match rest with
      | [] => [rc]
      | c :: r2 =>
        if cont4 b c then
          match r2 with
          | [] => [rc]
          | d :: r3 =>
            if isCont d then
              match r3 with
              | [] => [rc]
              | e :: r4 =>
                if isCont e then
                  ((b - 0xF0) * 0x40000 + (c - 0x80) * 0x1000 + (d - 0x80) * 0x40 + (e - 0x80))
                    :: utf8LossyDecode r4
                else rc :: utf8LossyDecode (e :: r4)
            else rc :: utf8LossyDecode (d :: r3)
        else rc :: utf8LossyDecode (c :: r2)
    else rc :: utf8LossyDecode rest := by
  rw [utf8LossyDecode.eq_def]

/-- Decoding inverts encoding on a single scalar, with any bytes following. -/
theorem decode_encodeChar (c : Nat) (h : IsScalar c) (rest : List Nat) :
    utf8LossyDecode (utf8EncodeChar c ++ rest) = c :: utf8LossyDecode rest := by
  have h110 : c < 0x110000 := by rcases h with h | h <;> omega
  by_cases h1 : c < 0x80
  · simp only [utf8EncodeChar, if_pos h1, List.cons_append, List.nil_append]
    rw [utf8LossyDecode.eq_def]
    simp only [if_pos h1]
  · by_cases h2 : c < 0x800
    · have e1 : ¬ (0xC0 + c / 0x40 < 0x80) := by omega
      have e2 : ¬ (0xC0 + c / 0x40 < 0xC2) := by omega
      have e3 : 0xC0 + c / 0x40 ≤ 0xDF := by omega
      have e4 : isCont (0x80 + c % 0x40) = true := by rw [isCont_iff]; omega
      simp only [utf8EncodeChar, if_neg h1, if_pos h2, List.cons_append, List.nil_append]
      rw [utf8LossyDecode.eq_def]
      simp only [if_neg e1, if_neg e2, if_pos e3, if_pos e4]
      congr 1
      omega
    · by_cases h3 : c < 0x10000
      · have hsur : c < 0xD800 ∨ 0xE000 ≤ c := by
          rcases h with h | h
          · exact Or.inl h
          · exact Or.inr h.1
        have e1 : ¬ (0xE0 + c / 0x1000 < 0x80) := by omega
        have e2 : ¬ (0xE0 + c / 0x1000 < 0xC2) := by omega
        have e3 : ¬ (0xE0 + c / 0x1000 ≤ 0xDF) := by omega
        have e4 : 0xE0 + c / 0x1000 ≤ 0xEF := by omega
        have e5 : cont3 (0xE0 + c / 0x1000) (0x80 + c / 0x40 % 0x40) = true := by
          simp only [cont3, isCont]
          by_cases hE0 : 0xE0 + c / 0x1000 = 0xE0
          · rw [if_pos hE0]; simp only [Bool.and_eq_true, decide_eq_true_eq]; omega
          · rw [if_neg hE0]
            by_cases hED : 0xE0 + c / 0x1000 = 0xED
            · rw [if_pos hED]; simp only [Bool.and_eq_true, decide_eq_true_eq]; omega
            · rw [if_neg hED]; simp only [Bool.and_eq_true, decide_eq_true_eq]; omega
        have e6 : isCont (0x80 + c % 0x40) = true := by rw [isCont_iff]; omega
        simp only [utf8EncodeChar, if_neg h1, if_neg h2, if_pos h3, List.cons_append,
          List.nil_append]
        rw [utf8LossyDecode.eq_def]
        simp only [if_neg e1, if_neg e2, if_neg e3, if_pos e4, if_pos e5, if_pos e6]
        congr 1
        omega
      · have e1 : ¬ (0xF0 + c / 0x40000 < 0x80) := by omega
        have e2 : ¬ (0xF0 + c / 0x40000 < 0xC2) := by omega
        have e3 : ¬ (0xF0 + c / 0x40000 ≤ 0xDF) := by omega
        have e4 : ¬ (0xF0 + c / 0x40000 ≤ 0xEF) := by omega
        have e5 : 0xF0 + c / 0x40000 ≤ 0xF4 := by omega
        have e6 : cont4 (0xF0 + c / 0x40000) (0x80 + c / 0x1000 % 0x40) = true := by
          simp only [cont4, isCont]
          by_cases hF0 : 0xF0 + c / 0x40000 = 0xF0
          · rw [if_pos hF0]; simp only [Bool.and_eq_true, decide_eq_true_eq]; omega
          · rw [if_neg hF0]
            by_cases hF4 : 0xF0 + c / 0x40000 = 0xF4
            · rw [if_pos hF4]; simp only [Bool.and_eq_true, decide_eq_true_eq]; omega
            · rw [if_neg hF4]; simp only [Bool.and_eq_true, decide_eq_true_eq]; omega
        have e7 : isCont (0x80 + c / 0x40 % 0x40) = true := by rw [isCont_iff]; omega
        have e8 : isCont (0x80 + c % 0x40) = true := by rw [isCont_iff]; omega
        simp only [utf8EncodeChar, if_neg h1, if_neg h2, if_neg h3, List.cons_append,
          List.nil_append]
        rw [utf8LossyDecode.eq_def]
        simp only [if_neg e1, if_neg e2, if_neg e3, if_neg e4, if_pos e5, if_pos e6,
          if_pos e7, if_pos e8]
        congr 1
        omega

/-- Decoding inverts encoding on any string of scalars, with a remainder. -/
theorem decode_encode_append (s : List Nat) (h : ∀ c ∈ s, IsScalar c) (rest : List Nat) :
    utf8LossyDecode (utf8Encode s ++ rest) = s ++ utf8LossyDecode rest := by
  induction s with
  | nil => simp [utf8Encode]
  | cons c t ih =>
    have hc : IsScalar c := h c (by simp)
    have ht : ∀ x ∈ t, IsScalar x := fun x hx => h x (by simp [hx])
    have ih2 := ih ht
    simp only [utf8Encode] at ih2
    simp only [utf8Encode, List.map_cons, List.flatten_cons, List.append_assoc]
    rw [decode_encodeChar c hc, ih2]
    simp

/-- Decoding inverts encoding: the model of the fact that
`String::from_utf8_lossy(s.as_bytes()) == s` for a Rust string `s`. -/
theorem decode_encode (s : List Nat) (h : ∀ c ∈ s, IsScalar c) :
    utf8LossyDecode (utf8Encode s) = s := by
  have := decode_encode_append s h []
  simpa [utf8LossyDecode_nil] using this

/-- ASCII bytes decode to themselves, with a remainder. -/
theorem decode_ascii_append (l : List Nat) (h : ∀ b ∈ l, b < 0x80) (rest : List Nat) :
    utf8LossyDecode (l ++ rest) = l ++ utf8LossyDecode rest := by
  induction l with
  | nil => simp
  | cons b t ih =>
    have hb : b < 0x80 := h b (by simp)
    have ht : ∀ x ∈ t, x < 0x80 := fun x hx => h x (by simp [hx])
    simp only [List.cons_append]
    rw [utf8LossyDecode_cons]
    rw [if_pos hb, ih ht]

/-! ### Frame decoder lemmas -/

/-- A found separator lies wholly inside the buffer (windows are
complete). -/
theorem findHeaderEnd_some_bound {l : List Nat} {n : Nat}
    (h : findHeaderEnd l = some n) : n + 4 ≤ l.length := by
  induction l generalizing n with
  | nil => simp [findHeaderEnd] at h
  | cons b rest ih =>
    rw [findHeaderEnd.eq_def] at h
    by_cases hc : b = 13 ∧ rest.take 3 = [10, 13, 10]
    · simp only [if_pos hc] at h
      obtain ⟨-, h3⟩ := hc
      have : (rest.take 3).length = 3 := by rw [h3]; rfl
      simp only [List.length_take] at this
      cases h
      simp only [List.length_cons]
      omega
    · simp only [if_neg hc, Option.map_eq_some'] at h
      obtain ⟨a, ha, rfl⟩ := h
      have := ih ha
      simp only [List.length_cons]
      omega

/-- Appending data does not move an already-found separator. -/
theorem findHeaderEnd_append {l : List Nat} {n : Nat} (d : List Nat)
    (h : findHeaderEnd l = some n) : findHeaderEnd (l ++ d) = some n := by
  induction l generalizing n with
  | nil => simp [findHeaderEnd] at h
  | cons b rest ih =>
    rw [findHeaderEnd.eq_def] at h
    rw [List.cons_append, findHeaderEnd.eq_def]
    by_cases hc : b = 13 ∧ rest.take 3 = [10, 13, 10]
    · have h3 : rest.length ≥ 3 := by
        have : (rest.take 3).length = 3 := by rw [hc.2]; rfl
        simp only [List.length_take] at this
        omega
      simp only [if_pos hc] at h
      have hc3 : b = 13 ∧ (rest ++ d).take 3 = [10, 13, 10] :=
        ⟨hc.1, by rw [List.take_append_of_le_length h3, hc.2]⟩
      simp only [if_pos hc3]
      exact h
    · simp only [if_neg hc, Option.map_eq_some'] at h
      obtain ⟨a, ha, rfl⟩ := h
      have hb := findHeaderEnd_some_bound ha
      have hc2 : ¬ (b = 13 ∧ (rest ++ d).take 3 = [10, 13, 10]) := by
        rw [List.take_append_of_le_length (by omega)]
        exact hc
      simp only [if_neg hc2, ih ha]
      rfl

/-- A `None` from `try_parse_message` leaves the buffer untouched. -/
theorem tryParse_none {buf b2 : List Nat}
    (h : tryParseMessage buf = (none, b2)) : b2 = buf := by
  unfold tryParseMessage at h
  split at h
  · simp only [Prod.mk.injEq] at h
    exact h.2.symm
  · split at h
    · simp only [Prod.mk.injEq] at h
      exact h.2.symm
    · split at h
      · simp only [Prod.mk.injEq] at h
        exact h.2.symm
      · simp only [Prod.mk.injEq] at h
        exact absurd h.1 (by simp)

/-- Full characterisation of a successful `try_parse_message`. -/
theorem tryParse_some {buf b2 : List Nat} {m : Msg}
    (hp : tryParseMessage buf = (some m, b2)) :
    ∃ h n, findHeaderEnd buf = some h ∧
      parseContentLength (utf8LossyDecode (buf.take h)) = some n ∧
      h + 4 + n ≤ buf.length ∧
      m.completeMessage = buf.take (h + 4 + n) ∧
      m.jsonPayload = utf8LossyDecode ((buf.take (h + 4 + n)).drop (h + 4)) ∧
      b2 = buf.drop (h + 4 + n) := by
  unfold tryParseMessage at hp
  split at hp
  · simp at hp
  · rename_i h hh
    split at hp
    · simp at hp
    · rename_i n hn
      split at hp
      · simp at hp
      · rename_i hlen
        simp only [Prod.mk.injEq, Option.some.injEq] at hp
        obtain ⟨hm, hb⟩ := hp
        refine ⟨h, n, hh, hn, by omega, ?_, ?_, hb.symm⟩
        · rw [← hm]
        · rw [← hm]

/-- The bytes drained by a successful parse are exactly the returned
complete message. -/
theorem tryParse_some_split {buf b2 : List Nat} {m : Msg}
    (hp : tryParseMessage buf = (some m, b2)) :
    buf = m.completeMessage ++ b2 := by
  obtain ⟨h, n, -, -, -, hm, -, hb⟩ := tryParse_some hp
  rw [hm, hb, List.take_append_drop]

/-- A successful parse strictly shrinks the buffer. -/
theorem tryParse_some_lt {buf b2 : List Nat} {m : Msg}
    (hp : tryParseMessage buf = (some m, b2)) : b2.length < buf.length := by
  obtain ⟨h, n, -, -, hlen, -, -, hb⟩ := tryParse_some hp
  rw [hb, List.length_drop]
  omega

/-- Stability: a message extracted from `buf` is extracted unchanged from
`buf ++ d`, with the appended data riding along in the residue. -/
theorem tryParse_append {buf b2 : List Nat} {m : Msg} (d : List Nat)
    (hp : tryParseMessage buf = (some m, b2)) :
    tryParseMessage (buf ++ d) = (some m, b2 ++ d) := by
  obtain ⟨h, n, hh, hn, hlen, hm, hj, hb⟩ := tryParse_some hp
  unfold tryParseMessage
  simp only [findHeaderEnd_append d hh,
    List.take_append_of_le_length (show h ≤ buf.length by omega), hn]
  rw [if_neg (by simp only [List.length_append]; omega)]
  rw [List.take_append_of_le_length (show h + 4 + n ≤ buf.length by omega)]
  rw [List.drop_append_of_le_length (show h + 4 + n ≤ buf.length by omega)]
  rw [← hj, ← hm, ← hb]

/-- Any fuel beyond the buffer length gives the same drain result. -/
theorem drainGo_fuel_irrel :
    ∀ (f g : Nat) (buf : List Nat), buf.length < f → buf.length < g →
    drainGo f buf = drainGo g buf := by
  intro f
  induction f with
  | zero => intro g buf hf; omega
  | succ f ih =>
    intro g buf hf hg
    cases g with
    | zero => omega
    | succ g =>
      rw [drainGo, drainGo]
      cases hp : tryParseMessage buf with
      | mk o b2 =>
        cases o with
        | none => rfl
        | some m =>
          have hlt := tryParse_some_lt hp
          simp only
          rw [ih g b2 (by omega) (by omega)]

/-- Unfolding `drainMessages` one successful parse at a time. -/
theorem drainMessages_some {buf b2 : List Nat} {m : Msg}
    (hp : tryParseMessage buf = (some m, b2)) :
    drainMessages buf = (m :: (drainMessages b2).1, (drainMessages b2).2) := by
  have hlt := tryParse_some_lt hp
  rw [drainMessages, drainGo]
  simp only [hp]
  rw [drainGo_fuel_irrel buf.length (b2.length + 1) b2 (by omega) (by omega)]
  rfl

theorem drainMessages_none {buf b2 : List Nat}
    (hp : tryParseMessage buf = (none, b2)) :
    drainMessages buf = ([], buf) := by
  have := tryParse_none hp
  subst this
  rw [drainMessages, drainGo, hp]

/-- The residue of a drain has no further parsable message. -/
theorem drainMessages_residue (buf : List Nat) :
    (tryParseMessage (drainMessages buf).2).1 = none := by
  cases hp : tryParseMessage buf with
  | mk o b2 =>
    cases o with
    | none =>
      rw [drainMessages_none hp]
      simp [hp]
    | some m =>
      have hlt := tryParse_some_lt hp
      rw [drainMessages_some hp]
      exact drainMessages_residue b2
termination_by buf.length
decreasing_by exact hlt

/-- Draining `buf ++ d` first yields the messages of `buf`, then the
messages of the residue of `buf` extended with `d`. -/
theorem drain_append (buf d : List Nat) :
    drainMessages (buf ++ d) =
      ((drainMessages buf).1 ++ (drainMessages ((drainMessages buf).2 ++ d)).1,
       (drainMessages ((drainMessages buf).2 ++ d)).2) := by
  cases hp : tryParseMessage buf with
  | mk o b2 =>
    cases o with
    | none =>
      rw [drainMessages_none hp]
      simp
    | some m =>
      have hlt := tryParse_some_lt hp
      rw [drainMessages_some hp, drainMessages_some (tryParse_append d hp)]
      rw [drain_append b2 d]
      simp
termination_by buf.length
decreasing_by exact hlt

/-- Feeding chunks into a fully drained buffer extracts exactly the
messages of the buffer extended with all the chunks at once. -/
theorem feedChunks_eq_drain (cs : List (List Nat)) (buf : List Nat)
    (h : (tryParseMessage buf).1 = none) :
    feedChunks buf cs = drainMessages (buf ++ cs.flatten) := by
  induction cs generalizing buf with
  | nil =>
    have hb : tryParseMessage buf = (none, (tryParseMessage buf).2) := by
      cases hp : tryParseMessage buf
      rw [hp] at h
      simp only at h
      rw [h]
    rw [feedChunks, List.flatten_nil, List.append_nil, drainMessages_none hb]
  | cons c cs ih =>
    rw [feedChunks, addData, List.flatten_cons, ← List.append_assoc]
    rw [drain_append (buf ++ c) cs.flatten]
    rw [ih _ (drainMessages_residue (buf ++ c))]

/-- **C1.**  Fragmentation invariance of the frame decoder: for every way
of splitting a byte stream into chunks, feeding the chunks one by one
with `add_data` and draining all available messages with
`try_parse_message` after each feed yields exactly the same sequence of
message bodies as draining the whole stream fed at once. -/
theorem c1_fragmentation_invariance (chunks : List (List Nat)) :
    ((feedChunks [] chunks).1.map Msg.jsonPayload) =
      ((drainMessages chunks.flatten).1.map Msg.jsonPayload) := by
  rw [feedChunks_eq_drain chunks [] (by rfl), List.nil_append]


/-! ### Supervisor: C4 -/

/-- **C4.**  Exit-code propagation: a race won by child exit makes the
program exit with the child's code (in particular code 7 for a child
exiting 7), with 1 when the exit status carries no code (killed by a
signal) or when the wait itself fails; a race won by any channel task
finishing makes the program exit 0. -/
theorem c4_exit_code_propagation :
    (∀ c : Int, mainExitCode (RaceWinner.childExit (Except.ok (some c))) = c) ∧
    mainExitCode (RaceWinner.childExit (Except.ok (some 7))) = 7 ∧
    mainExitCode (RaceWinner.childExit (Except.ok none)) = 1 ∧
    (∀ e, mainExitCode (RaceWinner.childExit (Except.error e)) = 1) ∧
    mainExitCode RaceWinner.stdinDone = 0 ∧
    mainExitCode RaceWinner.stdoutDone = 0 ∧
    mainExitCode RaceWinner.stderrDone = 0 :=
  ⟨fun _ => rfl, rfl, rfl, fun _ => rfl, rfl, rfl, rfl⟩

/-! ### FrameBuffer invariant: C8 -/

/-- **C8.**  FrameBuffer invariant: `add_data` only ever extends the
buffer at the back; a `try_parse_message` returning `None` leaves the
buffer unchanged; a successful `try_parse_message` drains from the front
exactly the complete message (headers + separator + body) returned to
the caller.  Quantified over every buffer, this covers every state
reachable by any sequence of `add_data` / `try_parse_message` calls. -/
theorem c8_buffer_invariant (buffer : List Nat) :
    (∀ bytes, addData buffer bytes = buffer ++ bytes) ∧
    (∀ b2, tryParseMessage buffer = (none, b2) → b2 = buffer) ∧
    (∀ m b2, tryParseMessage buffer = (some m, b2) → buffer = m.completeMessage ++ b2) :=
  ⟨fun _ => rfl, fun _ h => tryParse_none h, fun _ _ h => tryParse_some_split h⟩

/-- Witness for C8 at a concrete buffer holding one complete message. -/
theorem c8_buffer_invariant_witness :
    ascii "Content-Length: 2" ++ [13, 10, 13, 10] ++ ascii "ok" =
      (Msg.mk (ascii "Content-Length: 2" ++ [13, 10, 13, 10] ++ ascii "ok")
        (ascii "ok")).completeMessage ++ [] :=
  (c8_buffer_invariant (ascii "Content-Length: 2" ++ [13, 10, 13, 10] ++ ascii "ok")).2.2
    (Msg.mk (ascii "Content-Length: 2" ++ [13, 10, 13, 10] ++ ascii "ok") (ascii "ok")) []
    (by decide)

/-! ### Parse postcondition: C3 -/

/-- **C3 (counterexample).**  The claim "the returned message's JSON
payload has byte length equal to the declared Content-Length" fails for
a complete, well-formed frame whose one-byte body `0xFF` is not valid
UTF-8: `String::from_utf8_lossy` turns it into U+FFFD, whose UTF-8 byte
length is 3, not 1. -/
theorem c3_payload_length_counterexample :
    tryParseMessage (ascii "Content-Length: 1" ++ [13, 10, 13, 10, 0xFF]) =
      (some (Msg.mk (ascii "Content-Length: 1" ++ [13, 10, 13, 10, 0xFF]) [0xFFFD]), []) ∧
    (utf8Encode [0xFFFD]).length ≠ 1 :=
  ⟨by decide, by decide⟩

/-- **C3 (amended).**  Parse postcondition: for every buffer with a
found separator at `h`, a parsed Content-Length `n`, and at least
`h + 4 + n` bytes, `try_parse_message` returns exactly one message whose
raw body slice has byte length exactly `n` (the JSON payload is its
lossy UTF-8 decoding, equal in byte length to `n` whenever the body is
valid UTF-8), and the buffer shrinks by exactly `h + 4 + n` bytes. -/
theorem c3_parse_postcondition (buf : List Nat) (h n : Nat)
    (hh : findHeaderEnd buf = some h)
    (hn : parseContentLength (utf8LossyDecode (buf.take h)) = some n)
    (hlen : h + 4 + n ≤ buf.length) :
    tryParseMessage buf =
      (some (Msg.mk (buf.take (h + 4 + n))
        (utf8LossyDecode ((buf.take (h + 4 + n)).drop (h + 4)))),
       buf.drop (h + 4 + n)) ∧
    ((buf.take (h + 4 + n)).drop (h + 4)).length = n ∧
    (buf.drop (h + 4 + n)).length = buf.length - (h + 4 + n) := by
  refine ⟨?_, ?_, ?_⟩
  · unfold tryParseMessage
    simp only [hh, hn]
    rw [if_neg (by omega)]
  · simp only [List.length_drop, List.length_take]
    omega
  · simp only [List.length_drop]

/-- Witness for the amended C3 at the concrete frame of the spec's
example body. -/
theorem c3_parse_postcondition_witness :
    tryParseMessage (ascii "Content-Length: 2" ++ [13, 10, 13, 10] ++ ascii "okx") =
      (some (Msg.mk ((ascii "Content-Length: 2" ++ [13, 10, 13, 10] ++ ascii "okx").take 23)
        (utf8LossyDecode (((ascii "Content-Length: 2" ++ [13, 10, 13, 10] ++
          ascii "okx").take 23).drop 21))),
       (ascii "Content-Length: 2" ++ [13, 10, 13, 10] ++ ascii "okx").drop 23) ∧
    (((ascii "Content-Length: 2" ++ [13, 10, 13, 10] ++ ascii "okx").take 23).drop 21).length
      = 2 ∧
    ((ascii "Content-Length: 2" ++ [13, 10, 13, 10] ++ ascii "okx").drop 23).length =
      (ascii "Content-Length: 2" ++ [13, 10, 13, 10] ++ ascii "okx").length - 23 :=
  c3_parse_postcondition (ascii "Content-Length: 2" ++ [13, 10, 13, 10] ++ ascii "okx")
    17 2 (by decide) (by decide) (by decide)



/-! ### Channel loop lemmas -/

theorem logMsgs_ops (o : Nat → Bool) (idx : Nat) (ms : List Msg) :
    (logMsgs o idx ms).1 = ms.map (fun m => SinkOp.write (utf8Encode (logLine m))) := by
  induction ms generalizing idx with
  | nil => rfl
  | cons m ms ih => simp [logMsgs, ih]

theorem logMsgs_idx (o : Nat → Bool) (idx : Nat) (ms : List Msg) :
    (logMsgs o idx ms).2.2 = idx + ms.length := by
  induction ms generalizing idx with
  | nil => simp [logMsgs]
  | cons m ms ih =>
    simp [logMsgs, ih]
    omega

theorem logMsgs_parse_fail_mem (o : Nat → Bool) (idx : Nat) {m : Msg} {ms : List Msg}
    (hm : m ∈ ms) (hbad : jsonParse m.jsonPayload = none) :
    Diag.jsonParseFail ∈ (logMsgs o idx ms).2.1 := by
  induction ms generalizing idx with
  | nil => cases hm
  | cons m2 ms ih =>
    cases hm with
    | head =>
      simp [logMsgs, hbad]
    | tail _ h =>
      have := ih (idx + 1) h
      simp only [logMsgs, List.mem_append]
      tauto

/-! ### Lossless forwarding: C2 -/

/-- **C2.**  Lossless forwarding: over any schedule of reads in which
every data chunk's destination write and flush succeed, the
concatenation of all bytes written to the forwarding destination equals
the concatenation of all chunks read from the source --- in both logging
modes, whatever the log-write outcomes and whether or not the bytes
framed or JSON-parsed.  (A chunk read in the failing iteration of a
destination error is the only way a read can go unforwarded, and the
spec classifies that as channel termination.) -/
theorem c2_lossless_forwarding (jsonLines : Bool) (logOk : Nat → Bool) (st : ChanSt)
    (events : List ReadEvent) (h : ∀ e ∈ events, eventOk e) :
    sinkBytes (runChannel jsonLines logOk st events).destOps =
      (runChannel jsonLines logOk st events).reads.flatten ∧
    (runChannel jsonLines logOk st events).reads = dataChunks events := by
  induction events generalizing st with
  | nil => exact ⟨rfl, rfl⟩
  | cons e evs ih =>
    cases e with
    | eof => exact ⟨rfl, rfl⟩
    | readErr => exact ⟨rfl, rfl⟩
    | data chunk dOk fOk =>
      have hok : dOk = true ∧ fOk = true := h _ (List.mem_cons_self _ _)
      obtain ⟨rfl, rfl⟩ := hok
      have hevs : ∀ e ∈ evs, eventOk e := fun e he => h e (List.mem_cons_of_mem _ he)
      cases jsonLines with
      | false =>
        have key := ih ⟨st.buffer, st.logIdx + 1⟩ hevs
        constructor
        · simp only [runChannel]
          simp [sinkBytes] at key ⊢
          exact key.1
        · simp only [runChannel, dataChunks]
          simp [key.2]
      | true =>
        have key := ih ⟨(drainMessages (addData st.buffer chunk)).2,
          (logMsgs logOk st.logIdx (drainMessages (addData st.buffer chunk)).1).2.2⟩ hevs
        constructor
        · simp only [runChannel]
          simp [sinkBytes] at key ⊢
          exact key.1
        · simp only [runChannel, dataChunks]
          simp [key.2]

/-- Witness for C2 on a concrete two-event schedule. -/
theorem c2_lossless_forwarding_witness :
    sinkBytes (runChannel false (fun _ => true) ⟨[], 0⟩
        [ReadEvent.data [72, 105] true true, ReadEvent.eof]).destOps =
      (runChannel false (fun _ => true) ⟨[], 0⟩
        [ReadEvent.data [72, 105] true true, ReadEvent.eof]).reads.flatten ∧
    (runChannel false (fun _ => true) ⟨[], 0⟩
        [ReadEvent.data [72, 105] true true, ReadEvent.eof]).reads =
      dataChunks [ReadEvent.data [72, 105] true true, ReadEvent.eof] :=
  c2_lossless_forwarding false (fun _ => true) ⟨[], 0⟩ _ (by
    intro e he
    simp only [List.mem_cons, List.not_mem_nil, or_false] at he
    rcases he with rfl | rfl
    · exact ⟨rfl, rfl⟩
    · trivial)

/-! ### Error severity: C7 -/

/-- **C7.**  Error severity split.  First part: a destination write or
flush error terminates the read/forward loop --- after a run of clean
data events, a data event whose destination write or flush fails makes
the run ignore every later event.  Second part: a log-sink write error
does not terminate the loop --- the chunks read, the destination
operations, the log writes and the final buffer are identical under any
two log-write oracles (only the diagnostics differ), so the loop keeps
reading and forwarding after any failed log write. -/
theorem c7_error_severity :
    (∀ (jsonLines : Bool) (logOk : Nat → Bool) (st : ChanSt) (pre : List ReadEvent)
        (chunk : List Nat) (dOk fOk : Bool) (post : List ReadEvent),
      (∀ e ∈ pre, ∃ c, e = ReadEvent.data c true true) →
      (dOk = false ∨ fOk = false) →
      runChannel jsonLines logOk st (pre ++ ReadEvent.data chunk dOk fOk :: post) =
        runChannel jsonLines logOk st (pre ++ [ReadEvent.data chunk dOk fOk])) ∧
    (∀ (jsonLines : Bool) (o1 o2 : Nat → Bool) (st : ChanSt) (events : List ReadEvent),
      (runChannel jsonLines o1 st events).reads = (runChannel jsonLines o2 st events).reads ∧
      (runChannel jsonLines o1 st events).destOps =
        (runChannel jsonLines o2 st events).destOps ∧
      (runChannel jsonLines o1 st events).logOps =
        (runChannel jsonLines o2 st events).logOps ∧
      (runChannel jsonLines o1 st events).buffer =
        (runChannel jsonLines o2 st events).buffer) := by
  constructor
  · intro jsonLines logOk st pre chunk dOk fOk post hpre hfail
    induction pre generalizing st with
    | nil =>
      rcases hfail with rfl | rfl
      · cases fOk <;> (simp only [List.nil_append]; simp [runChannel])
      · cases dOk <;> (simp only [List.nil_append]; simp [runChannel])
    | cons e pre ih =>
      obtain ⟨c, rfl⟩ := hpre e (List.mem_cons_self _ _)
      have hpre2 : ∀ e ∈ pre, ∃ c, e = ReadEvent.data c true true :=
        fun e he => hpre e (List.mem_cons_of_mem _ he)
      simp only [List.cons_append, runChannel, eq_self_iff_true, if_true, List.append_eq]
      rw [ih _ hpre2]
  · intro jsonLines o1 o2 st events
    induction events generalizing st with
    | nil => exact ⟨rfl, rfl, rfl, rfl⟩
    | cons e evs ih =>
      cases e with
      | eof => exact ⟨rfl, rfl, rfl, rfl⟩
      | readErr => exact ⟨rfl, rfl, rfl, rfl⟩
      | data chunk dOk fOk =>
        cases jsonLines with
        | false =>
          cases dOk with
          | false => exact ⟨rfl, rfl, rfl, rfl⟩
          | true =>
            cases fOk with
            | false => exact ⟨rfl, rfl, rfl, rfl⟩
            | true =>
              obtain ⟨ihr, ihd, ihl, ihb⟩ := ih ⟨st.buffer, st.logIdx + 1⟩
              refine ⟨?_, ?_, ?_, ?_⟩ <;>
                simp [runChannel, ihr, ihd, ihl, ihb]
        | true =>
          cases dOk with
          | false =>
            refine ⟨rfl, rfl, ?_, rfl⟩
            simp [runChannel, logMsgs_ops]
          | true =>
            cases fOk with
            | false =>
              refine ⟨rfl, rfl, ?_, rfl⟩
              simp [runChannel, logMsgs_ops]
            | true =>
              obtain ⟨ihr, ihd, ihl, ihb⟩ :=
                ih ⟨(drainMessages (addData st.buffer chunk)).2,
                    st.logIdx + (drainMessages (addData st.buffer chunk)).1.length⟩
              refine ⟨?_, ?_, ?_, ?_⟩ <;>
                simp [runChannel, logMsgs_ops, logMsgs_idx, ihr, ihd, ihl, ihb]

/-- Witness for C7: a concrete destination failure cuts the schedule
short, and a concrete failing log oracle leaves the reads unchanged. -/
theorem c7_error_severity_witness :
    runChannel false (fun _ => true) ⟨[], 0⟩
        ([] ++ ReadEvent.data [65] false true :: [ReadEvent.data [66] true true]) =
      runChannel false (fun _ => true) ⟨[], 0⟩ ([] ++ [ReadEvent.data [65] false true]) ∧
    (runChannel false (fun _ => false) ⟨[], 0⟩
        [ReadEvent.data [65] true true, ReadEvent.data [66] true true]).reads =
      (runChannel false (fun _ => true) ⟨[], 0⟩
        [ReadEvent.data [65] true true, ReadEvent.data [66] true true]).reads :=
  ⟨c7_error_severity.1 false (fun _ => true) ⟨[], 0⟩ [] [65] false true
      [ReadEvent.data [66] true true] (by intro e he; cases he) (Or.inl rfl),
   (c7_error_severity.2 false (fun _ => false) (fun _ => true) ⟨[], 0⟩
      [ReadEvent.data [65] true true, ReadEvent.data [66] true true]).1⟩

/-! ### Flush discipline: C9 -/

/-- **C9 (counterexample).**  The claim that every write to a log sink
is followed by a flush of that log sink fails at the very first logged
chunk: the run writes the chunk to the log and never issues any flush on
the log sink (the `flush` calls in both tasks are on the forwarding
destination, not the log file). -/
theorem c9_log_flush_counterexample :
    (runChannel false (fun _ => true) ⟨[], 0⟩
        [ReadEvent.data [65] true true]).logOps = [SinkOp.write [65]] ∧
    everyWriteFlushed (runChannel false (fun _ => true) ⟨[], 0⟩
        [ReadEvent.data [65] true true]).logOps = false :=
  ⟨rfl, rfl⟩

/-- The channel loop never issues a flush on the log sink, on any
schedule: the only `flush` calls in the tasks are on the forwarding
destination. -/
theorem runChannel_log_no_flush (jsonLines : Bool) (logOk : Nat → Bool) (st : ChanSt)
    (events : List ReadEvent) :
    SinkOp.flush ∉ (runChannel jsonLines logOk st events).logOps := by
  induction events generalizing st with
  | nil => simp [runChannel]
  | cons e evs ih =>
    cases e with
    | eof => simp [runChannel]
    | readErr => simp [runChannel]
    | data chunk dOk fOk =>
      cases jsonLines <;> cases dOk <;> cases fOk <;>
        simp [runChannel, logMsgs_ops] <;>
        exact ih _

/-- **C9 (amended).**  Flush discipline: after each successfully
forwarded chunk the forwarding destination is flushed (destination
operations are exactly a write followed by a flush per chunk read), and
the log sink is never flushed by the channel loop --- log writes are not
followed by any log-sink flush. -/
theorem c9_flush_discipline (jsonLines : Bool) (logOk : Nat → Bool) (st : ChanSt)
    (events : List ReadEvent) (h : ∀ e ∈ events, eventOk e) :
    (runChannel jsonLines logOk st events).destOps =
      ((runChannel jsonLines logOk st events).reads.map
        (fun c => [SinkOp.write c, SinkOp.flush])).flatten ∧
    SinkOp.flush ∉ (runChannel jsonLines logOk st events).logOps := by
  induction events generalizing st with
  | nil => exact ⟨rfl, by simp [runChannel]⟩
  | cons e evs ih =>
    cases e with
    | eof => exact ⟨rfl, by simp [runChannel]⟩
    | readErr => exact ⟨rfl, by simp [runChannel]⟩
    | data chunk dOk fOk =>
      have hok : dOk = true ∧ fOk = true := h _ (List.mem_cons_self _ _)
      obtain ⟨rfl, rfl⟩ := hok
      have hevs : ∀ e ∈ evs, eventOk e := fun e he => h e (List.mem_cons_of_mem _ he)
      constructor
      · simp only [runChannel, eq_self_iff_true, if_true]
        simp [(ih _ hevs).1]
      · exact runChannel_log_no_flush _ _ _ _

/-- Witness for the amended C9 on a concrete clean schedule. -/
theorem c9_flush_discipline_witness :
    (runChannel false (fun _ => true) ⟨[], 0⟩
        [ReadEvent.data [65] true true, ReadEvent.eof]).destOps =
      ((runChannel false (fun _ => true) ⟨[], 0⟩
        [ReadEvent.data [65] true true, ReadEvent.eof]).reads.map
        (fun c => [SinkOp.write c, SinkOp.flush])).flatten ∧
    SinkOp.flush ∉ (runChannel false (fun _ => true) ⟨[], 0⟩
        [ReadEvent.data [65] true true, ReadEvent.eof]).logOps :=
  c9_flush_discipline false (fun _ => true) ⟨[], 0⟩ _ (by
    intro e he
    simp only [List.mem_cons, List.not_mem_nil, or_false] at he
    rcases he with rfl | rfl
    · exact ⟨rfl, rfl⟩
    · trivial)



/-! ### Decimal digits and `Content-Length` header lemmas (toward C10) -/

theorem digitsAux_fuel_irrel :
    ∀ (f g n : Nat) (acc : List Nat), n < f → n < g →
    digitsAux f n acc = digitsAux g n acc := by
  intro f
  induction f with
  | zero => intro g n acc hf; omega
  | succ f ih =>
    intro g n acc hf hg
    cases g with
    | zero => omega
    | succ g =>
      rw [digitsAux, digitsAux]
      by_cases h10 : n < 10
      · rw [if_pos h10, if_pos h10]
      · rw [if_neg h10, if_neg h10]
        exact ih g (n / 10) _ (by omega) (by omega)

theorem digitsAux_acc (f : Nat) :
    ∀ (n : Nat) (acc : List Nat), n < f →
    digitsAux f n acc = digitsAux f n [] ++ acc := by
  induction f with
  | zero => intro n acc hf; omega
  | succ f ih =>
    intro n acc hf
    rw [digitsAux, digitsAux]
    by_cases h10 : n < 10
    · rw [if_pos h10, if_pos h10]
      rfl
    · rw [if_neg h10, if_neg h10]
      have hlt : n / 10 < f := by omega
      rw [ih (n / 10) _ hlt, ih (n / 10) [0x30 + n % 10] hlt]
      simp

theorem natDigits_unfold (n : Nat) :
    natDigits n = (if n < 10 then [] else natDigits (n / 10)) ++ [0x30 + n % 10] := by
  rw [natDigits, digitsAux]
  by_cases h10 : n < 10
  · rw [if_pos h10, if_pos h10]
    simp
    omega
  · rw [if_neg h10, if_neg h10]
    rw [digitsAux_acc n (n / 10) _ (by omega)]
    rw [digitsAux_fuel_irrel n (n / 10 + 1) (n / 10) [] (by omega) (by omega)]
    rfl

theorem natDigits_ne_nil (n : Nat) : natDigits n ≠ [] := by
  rw [natDigits_unfold]
  simp

theorem natDigits_all_digits (n : Nat) : ∀ c ∈ natDigits n, isDig c = true := by
  induction n using Nat.strong_induction_on with
  | _ n ih =>
    rw [natDigits_unfold]
    intro c hc
    rw [List.mem_append] at hc
    rcases hc with hc | hc
    · by_cases h10 : n < 10
      · rw [if_pos h10] at hc
        cases hc
      · rw [if_neg h10] at hc
        exact ih (n / 10) (by omega) c hc
    · rw [List.mem_singleton] at hc
      subst hc
      simp only [isDig, Bool.and_eq_true, decide_eq_true_eq]
      omega

theorem digitsVal_natDigits (n : Nat) : digitsVal (natDigits n) = n := by
  induction n using Nat.strong_induction_on with
  | _ n ih =>
    rw [natDigits_unfold]
    by_cases h10 : n < 10
    · rw [if_pos h10]
      simp [digitsVal]
      omega
    · rw [if_neg h10]
      rw [digitsVal, List.foldl_append]
      have := ih (n / 10) (by omega)
      rw [digitsVal] at this
      rw [this]
      simp
      omega

/-- `parse::<usize>` accepts a bare digit run in range and returns its
value. -/
theorem parseUsize_digits {l : List Nat} (hd : ∀ c ∈ l, isDig c = true)
    (hne : l ≠ []) (hlt : digitsVal l < 2 ^ 64) :
    parseUsize l = some (digitsVal l) := by
  cases l with
  | nil => exact absurd rfl hne
  | cons c t =>
    have hc : isDig c = true := hd c (List.mem_cons_self _ _)
    have hc43 : c ≠ 0x2B := by
      simp only [isDig, Bool.and_eq_true, decide_eq_true_eq] at hc
      omega
    unfold parseUsize
    split
    · rename_i r heq
      injection heq with h1 h2
      exact absurd h1 hc43
    · show (if c :: t = [] then none
        else if (c :: t).all isDig then
          (if digitsVal (c :: t) < 2 ^ 64 then some (digitsVal (c :: t)) else none)
        else none) = some (digitsVal (c :: t))
      rw [if_neg (by simp), if_pos (by rw [List.all_eq_true]; exact hd), if_pos hlt]

theorem parseUsize_natDigits (n : Nat) (hn : n < 2 ^ 64) :
    parseUsize (natDigits n) = some n := by
  have := parseUsize_digits (natDigits_all_digits n) (natDigits_ne_nil n)
    (by rw [digitsVal_natDigits]; exact hn)
  rw [digitsVal_natDigits] at this
  exact this

theorem utf8Encode_append (a b : List Nat) :
    utf8Encode (a ++ b) = utf8Encode a ++ utf8Encode b := by
  simp [utf8Encode]

/-- ASCII code points UTF-8-encode to themselves. -/
theorem utf8Encode_ascii {l : List Nat} (h : ∀ c ∈ l, c < 0x80) :
    utf8Encode l = l := by
  induction l with
  | nil => rfl
  | cons c t ih =>
    have hc : c < 0x80 := h c (List.mem_cons_self _ _)
    have ht := ih (fun x hx => h x (List.mem_cons_of_mem _ hx))
    simp only [utf8Encode, List.map_cons, List.flatten_cons] at ht ⊢
    rw [ht, utf8EncodeChar, if_pos hc]
    rfl

/-- ASCII bytes decode to themselves. -/
theorem utf8LossyDecode_ascii {l : List Nat} (h : ∀ b ∈ l, b < 0x80) :
    utf8LossyDecode l = l := by
  have := decode_ascii_append l h []
  simpa [utf8LossyDecode_nil] using this

/-- The separator after a CR-free prefix is the first one found. -/
theorem findHeaderEnd_no13 {l : List Nat} (h : ∀ b ∈ l, b ≠ 13) (r : List Nat) :
    findHeaderEnd (l ++ 13 :: 10 :: 13 :: 10 :: r) = some l.length := by
  induction l with
  | nil =>
    rw [List.nil_append, findHeaderEnd.eq_def]
    simp [List.take]
  | cons b t ih =>
    have hb : b ≠ 13 := h b (List.mem_cons_self _ _)
    have ht := ih (fun x hx => h x (List.mem_cons_of_mem _ hx))
    rw [List.cons_append, findHeaderEnd.eq_def]
    simp only [if_neg (show ¬ (b = 13 ∧
      (t ++ 13 :: 10 :: 13 :: 10 :: r).take 3 = [10, 13, 10]) from fun hc => hb hc.1)]
    rw [ht]
    rfl

/-- A newline-free nonempty text is a single `lines` line. -/
theorem rustLinesGo_no_nl :
    ∀ (l acc : List Nat), (∀ c ∈ l, c ≠ 10) → (acc = [] → l ≠ []) →
    rustLinesGo acc l = [acc.reverse ++ l] := by
  intro l
  induction l with
  | nil =>
    intro acc hnl hne
    rw [rustLinesGo.eq_def]
    simp only [if_neg (show ¬ acc = [] from fun hacc => hne hacc rfl)]
    simp
  | cons c t ih =>
    intro acc hnl hne
    have hc : c ≠ 10 := hnl c (List.mem_cons_self _ _)
    rw [rustLinesGo.eq_def]
    simp only [if_neg hc]
    rw [ih (c :: acc) (fun x hx => hnl x (List.mem_cons_of_mem _ hx)) (by simp)]
    simp

theorem rustLines_single {l : List Nat} (hnl : ∀ c ∈ l, c ≠ 10) (hne : l ≠ []) :
    rustLines l = [l] := by
  rw [rustLines, rustLinesGo_no_nl l [] hnl (fun _ => hne)]
  simp

theorem dropPre_self_append (p s : List Nat) : dropPre p (p ++ s) = some s := by
  induction p with
  | nil => rfl
  | cons c t ih => simp [dropPre, ih]

/-- `trim` on a text with no whitespace anywhere is the identity. -/
theorem trimWs_no_ws {l : List Nat} (h : ∀ c ∈ l, isWs c = false) :
    trimWs l = l := by
  have h1 : l.dropWhile isWs = l := by
    cases l with
    | nil => rfl
    | cons c t => rw [List.dropWhile_cons_of_neg (by simp [h c (List.mem_cons_self _ _)])]
  have h2 : l.reverse.dropWhile isWs = l.reverse := by
    cases hr : l.reverse with
    | nil => rfl
    | cons c t =>
      have hc : c ∈ l := by
        rw [← List.mem_reverse, hr]
        exact List.mem_cons_self _ _
      rw [List.dropWhile_cons_of_neg (by simp [h c hc])]
  rw [trimWs, h1, h2, List.reverse_reverse]

theorem isWs_of_digit {c : Nat} (h : isDig c = true) : isWs c = false := by
  simp only [isDig, Bool.and_eq_true, decide_eq_true_eq] at h
  simp only [isWs]
  simp only [Bool.or_eq_false_iff, decide_eq_false_iff_not, Bool.and_eq_false_iff,
    decide_eq_false_iff_not]
  omega

/-- `parse_content_length` on the header produced by
`format_lsp_message`. -/
theorem parseContentLength_format (n : Nat) (hn : n < 2 ^ 64) :
    parseContentLength (ascii "Content-Length: " ++ natDigits n) = some n := by
  have hnl : ∀ c ∈ ascii "Content-Length: " ++ natDigits n, c ≠ 10 := by
    intro c hc
    rw [List.mem_append] at hc
    rcases hc with hc | hc
    · exact (show ∀ x ∈ ascii "Content-Length: ", x ≠ 10 from by decide) c hc
    · have := natDigits_all_digits n c hc
      simp only [isDig, Bool.and_eq_true, decide_eq_true_eq] at this
      omega
  rw [parseContentLength, rustLines_single hnl (by simp [ascii])]
  have hsplit : ascii "Content-Length: " ++ natDigits n = clPre ++ (0x20 :: natDigits n) := by
    rw [show ascii "Content-Length: " = clPre ++ [0x20] from by decide]
    simp
  rw [hsplit]
  have hps : dropPre clPre (clPre ++ (0x20 :: natDigits n)) = some (0x20 :: natDigits n) :=
    dropPre_self_append _ _
  have hfind : List.find? (fun l => (dropPre clPre l).isSome)
      [clPre ++ (0x20 :: natDigits n)] = some (clPre ++ (0x20 :: natDigits n)) := by
    rw [List.find?_cons_of_pos]
    rw [hps]
    rfl
  simp only [hfind, hps, Option.some_bind]
  have htrim : trimWs (0x20 :: natDigits n) = natDigits n := by
    rw [trimWs]
    rw [List.dropWhile_cons_of_pos (by decide)]
    have h1 : (natDigits n).dropWhile isWs = natDigits n := by
      cases hd : natDigits n with
      | nil => rfl
      | cons c t =>
        rw [List.dropWhile_cons_of_neg]
        simp only [Bool.not_eq_true]
        exact isWs_of_digit (natDigits_all_digits n c (hd ▸ List.mem_cons_self _ _))
    have h2 : (natDigits n).reverse.dropWhile isWs = (natDigits n).reverse := by
      cases hr : (natDigits n).reverse with
      | nil => rfl
      | cons c t =>
        have hc : c ∈ natDigits n := by
          rw [← List.mem_reverse, hr]
          exact List.mem_cons_self _ _
        rw [List.dropWhile_cons_of_neg]
        simp only [Bool.not_eq_true]
        exact isWs_of_digit (natDigits_all_digits n c hc)
    rw [h1, h2, List.reverse_reverse]
  rw [htrim, parseUsize_natDigits n hn]

/-! ### Formatter/decoder round trip: C10 -/

/-- **C10.**  Formatter/decoder round trip: for every string `j` (of
Unicode scalars, as every Rust `&str` is) whose byte length fits in
`usize`, feeding the bytes of `format_lsp_message(j)` into a fresh
`LspMessageParser` yields exactly one message whose JSON payload is `j`
and whose raw frame is the whole input, and leaves the buffer empty. -/
theorem c10_format_roundtrip (j : List Nat) (hs : ∀ c ∈ j, IsScalar c)
    (hlen : (utf8Encode j).length < 2 ^ 64) :
    tryParseMessage (utf8Encode (formatLspMessage j)) =
      (some (Msg.mk (utf8Encode (formatLspMessage j)) j), []) ∧
    drainMessages (utf8Encode (formatLspMessage j)) =
      ([Msg.mk (utf8Encode (formatLspMessage j)) j], []) := by
  have hascii : ∀ c ∈ ascii "Content-Length: " ++ natDigits (utf8Encode j).length,
      c < 0x80 := by
    intro c hc
    rw [List.mem_append] at hc
    rcases hc with hc | hc
    · exact (show ∀ x ∈ ascii "Content-Length: ", x < 0x80 from by decide) c hc
    · have := natDigits_all_digits _ c hc
      simp only [isDig, Bool.and_eq_true, decide_eq_true_eq] at this
      omega
  have hB : utf8Encode (formatLspMessage j) =
      (ascii "Content-Length: " ++ natDigits (utf8Encode j).length) ++
        13 :: 10 :: 13 :: 10 :: utf8Encode j := by
    rw [formatLspMessage]
    rw [show ascii "Content-Length: " ++ natDigits (utf8Encode j).length ++
        [13, 10, 13, 10] ++ j =
      ((ascii "Content-Length: " ++ natDigits (utf8Encode j).length) ++ [13, 10, 13, 10]) ++ j
      by simp]
    rw [utf8Encode_append, utf8Encode_ascii]
    · simp
    · intro c hc
      rw [List.mem_append] at hc
      rcases hc with hc | hc
      · exact hascii c hc
      · simp only [List.mem_cons, List.not_mem_nil, or_false] at hc
        rcases hc with rfl | rfl | rfl | rfl <;> omega
  have hno13 : ∀ b ∈ ascii "Content-Length: " ++ natDigits (utf8Encode j).length, b ≠ 13 := by
    intro b hb
    have := hascii b hb
    rw [List.mem_append] at hb
    rcases hb with hb | hb
    · exact (show ∀ x ∈ ascii "Content-Length: ", x ≠ 13 from by decide) b hb
    · have := natDigits_all_digits _ b hb
      simp only [isDig, Bool.and_eq_true, decide_eq_true_eq] at this
      omega
  set H := ascii "Content-Length: " ++ natDigits (utf8Encode j).length with hHdef
  have hfhe : findHeaderEnd (utf8Encode (formatLspMessage j)) = some H.length := by
    rw [hB]
    exact findHeaderEnd_no13 hno13 _
  have hlenB : (utf8Encode (formatLspMessage j)).length =
      H.length + 4 + (utf8Encode j).length := by
    rw [hB]
    simp
    omega
  have htake : (utf8Encode (formatLspMessage j)).take H.length = H := by
    rw [hB, List.take_append_of_le_length (by simp), List.take_length]
  have hcl : parseContentLength
      (utf8LossyDecode ((utf8Encode (formatLspMessage j)).take H.length)) =
      some (utf8Encode j).length := by
    rw [htake, utf8LossyDecode_ascii hascii]
    exact parseContentLength_format _ hlen
  have hmain : tryParseMessage (utf8Encode (formatLspMessage j)) =
      (some (Msg.mk (utf8Encode (formatLspMessage j)) j), []) := by
    unfold tryParseMessage
    simp only [hfhe, hcl]
    rw [if_neg (by omega)]
    rw [show H.length + 4 + (utf8Encode j).length = (utf8Encode (formatLspMessage j)).length
      by omega]
    rw [List.take_length, List.drop_length]
    have hdrop : (utf8Encode (formatLspMessage j)).drop (H.length + 4) = utf8Encode j := by
      rw [hB]
      rw [show H.length + 4 = (H ++ [13, 10, 13, 10]).length by simp]
      rw [show H ++ 13 :: 10 :: 13 :: 10 :: utf8Encode j =
        (H ++ [13, 10, 13, 10]) ++ utf8Encode j by simp]
      rw [List.drop_left]
    rw [hdrop, decode_encode j hs]
  refine ⟨hmain, ?_⟩
  rw [drainMessages_some hmain]
  rw [drainMessages_none (by rfl)]

/-- Witness for C10 at the concrete payload `true`. -/
theorem c10_format_roundtrip_witness :
    tryParseMessage (utf8Encode (formatLspMessage [116, 114, 117, 101])) =
      (some (Msg.mk (utf8Encode (formatLspMessage [116, 114, 117, 101]))
        [116, 114, 117, 101]), []) ∧
    drainMessages (utf8Encode (formatLspMessage [116, 114, 117, 101])) =
      ([Msg.mk (utf8Encode (formatLspMessage [116, 114, 117, 101])) [116, 114, 117, 101]],
        []) :=
  c10_format_roundtrip [116, 114, 117, 101]
    (by intro c hc; simp only [List.mem_cons, List.not_mem_nil, or_false] at hc
        rcases hc with rfl | rfl | rfl | rfl <;> exact Or.inl (by omega))
    (by decide)



/-! ### Invalid-JSON fallback: C5 -/

/-- **C5.**  Invalid-JSON fallback in JSON-lines mode: for every message
completed by a chunk whose body fails to parse as JSON, processing that
chunk issues exactly one log `write_all` per extracted message, the
failing message's line being the original body text verbatim followed by
a newline; a `Failed to parse JSON` diagnostic is emitted; and the raw
chunk is still forwarded unchanged to the destination.  (JSON parse
failure is relative to the `serde_json` model above, which treats the
unmodelled floating-point literals as unparsable.) -/
theorem c5_invalid_json_fallback (buffer chunk : List Nat) (logOk : Nat → Bool) (idx : Nat)
    (m : Msg) (hm : m ∈ (drainMessages (addData buffer chunk)).1)
    (hbad : jsonParse m.jsonPayload = none) :
    (runChannel true logOk ⟨buffer, idx⟩ [ReadEvent.data chunk true true]).logOps =
      ((drainMessages (addData buffer chunk)).1).map
        (fun m2 => SinkOp.write (utf8Encode (logLine m2))) ∧
    logLine m = m.jsonPayload ++ [10] ∧
    Diag.jsonParseFail ∈
      (runChannel true logOk ⟨buffer, idx⟩ [ReadEvent.data chunk true true]).diags ∧
    SinkOp.write chunk ∈
      (runChannel true logOk ⟨buffer, idx⟩ [ReadEvent.data chunk true true]).destOps := by
  refine ⟨?_, ?_, ?_, ?_⟩
  · simp [runChannel, logMsgs_ops]
  · rw [logLine, hbad]
  · simp only [runChannel, eq_self_iff_true, if_true]
    simp only [List.mem_append]
    exact Or.inl (logMsgs_parse_fail_mem logOk idx hm hbad)
  · simp [runChannel]

/-- Witness for C5: a complete message with the non-JSON body `hello`. -/
theorem c5_invalid_json_fallback_witness :
    (runChannel true (fun _ => true) ⟨[], 0⟩
        [ReadEvent.data (ascii "Content-Length: 5" ++ [13, 10, 13, 10] ++ ascii "hello")
          true true]).logOps =
      ((drainMessages (addData []
          (ascii "Content-Length: 5" ++ [13, 10, 13, 10] ++ ascii "hello"))).1).map
        (fun m2 => SinkOp.write (utf8Encode (logLine m2))) ∧
    logLine (Msg.mk (ascii "Content-Length: 5" ++ [13, 10, 13, 10] ++ ascii "hello")
        (ascii "hello")) =
      (Msg.mk (ascii "Content-Length: 5" ++ [13, 10, 13, 10] ++ ascii "hello")
        (ascii "hello")).jsonPayload ++ [10] ∧
    Diag.jsonParseFail ∈
      (runChannel true (fun _ => true) ⟨[], 0⟩
        [ReadEvent.data (ascii "Content-Length: 5" ++ [13, 10, 13, 10] ++ ascii "hello")
          true true]).diags ∧
    SinkOp.write (ascii "Content-Length: 5" ++ [13, 10, 13, 10] ++ ascii "hello") ∈
      (runChannel true (fun _ => true) ⟨[], 0⟩
        [ReadEvent.data (ascii "Content-Length: 5" ++ [13, 10, 13, 10] ++ ascii "hello")
          true true]).destOps :=
  c5_invalid_json_fallback [] (ascii "Content-Length: 5" ++ [13, 10, 13, 10] ++ ascii "hello")
    (fun _ => true) 0
    (Msg.mk (ascii "Content-Length: 5" ++ [13, 10, 13, 10] ++ ascii "hello") (ascii "hello"))
    (by decide) (by rfl)



/-! ### Key order and `BTreeMap` insertion lemmas (toward C6) -/

theorem bytesLt_irrefl (a : List Nat) : bytesLt a a = false := by
  induction a with
  | nil => rfl
  | cons x xs ih =>
    rw [bytesLt]
    rw [if_neg (by omega), if_neg (by omega)]
    exact ih

theorem bytesLt_asymm {a b : List Nat} (h : bytesLt a b = true) : bytesLt b a = false := by
  induction a generalizing b with
  | nil =>
    cases b with
    | nil => simpa [bytesLt] using h
    | cons y ys => rfl
  | cons x xs ih =>
    cases b with
    | nil => simp [bytesLt] at h
    | cons y ys =>
      rw [bytesLt] at h ⊢
      by_cases hxy : x < y
      · rw [if_neg (by omega), if_pos hxy]
      · rw [if_neg hxy] at h
        by_cases hyx : y < x
        · rw [if_pos hyx] at h
          cases h
        · rw [if_neg hyx] at h
          rw [if_neg hyx, if_neg hxy]
          exact ih h

theorem bytesLt_trans {a b c : List Nat} (hab : bytesLt a b = true)
    (hbc : bytesLt b c = true) : bytesLt a c = true := by
  induction a generalizing b c with
  | nil =>
    cases c with
    | nil =>
      cases b with
      | nil => simpa [bytesLt] using hab
      | cons y ys => simp [bytesLt] at hbc
    | cons z zs => rfl
  | cons x xs ih =>
    cases b with
    | nil => simp [bytesLt] at hab
    | cons y ys =>
      cases c with
      | nil => simp [bytesLt] at hbc
      | cons z zs =>
        rw [bytesLt] at hab hbc ⊢
        by_cases hxy : x < y
        · by_cases hyz : y < z
          · rw [if_pos (by omega)]
          · rw [if_neg hyz] at hbc
            by_cases hzy : z < y
            · rw [if_pos hzy] at hbc
              cases hbc
            · rw [if_pos (by omega)]
        · rw [if_neg hxy] at hab
          by_cases hyx : y < x
          · rw [if_pos hyx] at hab
            cases hab
          · rw [if_neg hyx] at hab
            by_cases hyz : y < z
            · rw [if_pos (by omega)]
            · rw [if_neg hyz] at hbc
              by_cases hzy : z < y
              · rw [if_pos hzy] at hbc
                cases hbc
              · rw [if_neg hzy] at hbc
                rw [if_neg (by omega), if_neg (by omega)]
                exact ih hab hbc

theorem bytesLt_total {a b : List Nat} (h1 : bytesLt a b = false) (h2 : a ≠ b) :
    bytesLt b a = true := by
  induction a generalizing b with
  | nil =>
    cases b with
    | nil => exact absurd rfl h2
    | cons y ys => simp [bytesLt] at h1
  | cons x xs ih =>
    cases b with
    | nil => rfl
    | cons y ys =>
      rw [bytesLt] at h1 ⊢
      by_cases hxy : x < y
      · rw [if_pos hxy] at h1
        cases h1
      · rw [if_neg hxy] at h1
        by_cases hyx : y < x
        · rw [if_pos hyx]
        · rw [if_neg hyx] at h1
          rw [if_neg hyx, if_neg hxy]
          exact ih h1 (by
            intro he
            exact h2 (by rw [he, show x = y from by omega]))

theorem memAppend_assoc :
    ∀ (a b c : JsonMembers), memAppend (memAppend a b) c = memAppend a (memAppend b c)
  | .nil, _, _ => rfl
  | .cons k v tl, b, c => by
    simp only [memAppend]
    rw [memAppend_assoc tl b c]

theorem keysAbove_memAppend :
    ∀ (x : List Nat) (a b : JsonMembers),
    keysAbove x (memAppend a b) ↔ keysAbove x a ∧ keysAbove x b
  | _, .nil, _ => by simp [memAppend, keysAbove]
  | x, .cons k v tl, b => by
    simp only [memAppend, keysAbove]
    rw [keysAbove_memAppend x tl b]
    tauto

/-- All keys already in the map sit below the key of the first appended
member, when the whole appended map is sorted. -/
theorem memSorted_append_below :
    ∀ {acc : JsonMembers} {k : List Nat} {v : Json} {tl : JsonMembers},
    memSorted (memAppend acc (JsonMembers.cons k v tl)) → keysBelow k acc
  | .nil, _, _, _, _ => trivial
  | .cons k2 v2 a2, k, v, tl, h => by
    obtain ⟨habove, hrest⟩ := h
    exact ⟨((keysAbove_memAppend k2 a2 _).mp habove).2.1,
      memSorted_append_below hrest⟩

/-- Inserting a key above every present key appends at the end. -/
theorem insertKV_append_of_below :
    ∀ {acc : JsonMembers} {k : List Nat} {v : Json}, keysBelow k acc →
    insertKV k v acc = memAppend acc (JsonMembers.cons k v JsonMembers.nil)
  | .nil, _, _, _ => rfl
  | .cons k2 v2 tl, k, v, h => by
    obtain ⟨hlt, htl⟩ := h
    rw [insertKV]
    rw [if_neg (by rw [bytesLt_asymm hlt]; simp)]
    rw [if_neg (by
      intro he
      rw [he] at hlt
      rw [bytesLt_irrefl] at hlt
      cases hlt)]
    rw [insertKV_append_of_below htl]
    rfl

/-- Keys above a larger key are above a smaller one. -/
theorem keysAbove_of_lt :
    ∀ {x y : List Nat} {ms : JsonMembers},
    bytesLt (utf8Encode x) (utf8Encode y) = true → keysAbove y ms → keysAbove x ms
  | _, _, .nil, _, _ => trivial
  | x, y, .cons k v tl, hxy, h =>
    ⟨bytesLt_trans hxy h.1, keysAbove_of_lt hxy h.2⟩

theorem keysAbove_insertKV :
    ∀ {x k : List Nat} {v : Json} {ms : JsonMembers},
    keysAbove x ms → bytesLt (utf8Encode x) (utf8Encode k) = true →
    keysAbove x (insertKV k v ms)
  | _, _, _, .nil, _, hk => ⟨hk, trivial⟩
  | x, k, v, .cons k2 v2 tl, h, hk => by
    obtain ⟨h2, htl⟩ := h
    rw [insertKV]
    by_cases hlt : bytesLt (utf8Encode k) (utf8Encode k2) = true
    · rw [if_pos hlt]
      exact ⟨hk, h2, htl⟩
    · rw [if_neg hlt]
      by_cases heq : utf8Encode k = utf8Encode k2
      · rw [if_pos heq]
        exact ⟨h2, htl⟩
      · rw [if_neg heq]
        exact ⟨h2, keysAbove_insertKV htl hk⟩

theorem memSorted_insertKV :
    ∀ {k : List Nat} {v : Json} {ms : JsonMembers},
    memSorted ms → memSorted (insertKV k v ms)
  | _, _, .nil, _ => ⟨trivial, trivial⟩
  | k, v, .cons k2 v2 tl, h => by
    obtain ⟨habove, htl⟩ := h
    rw [insertKV]
    by_cases hlt : bytesLt (utf8Encode k) (utf8Encode k2) = true
    · rw [if_pos hlt]
      exact ⟨⟨hlt, keysAbove_of_lt hlt habove⟩, habove, htl⟩
    · rw [if_neg hlt]
      by_cases heq : utf8Encode k = utf8Encode k2
      · rw [if_pos heq]
        exact ⟨habove, htl⟩
      · rw [if_neg heq]
        have hgt : bytesLt (utf8Encode k2) (utf8Encode k) = true :=
          bytesLt_total (by simpa using hlt) heq
        exact ⟨keysAbove_insertKV habove hgt, memSorted_insertKV htl⟩

theorem JsonMembersWF_insertKV :
    ∀ {k : List Nat} {v : Json} {ms : JsonMembers},
    JsonWF v → JsonMembersWF ms → JsonMembersWF (insertKV k v ms)
  | _, _, .nil, hv, _ => ⟨hv, trivial⟩
  | k, v, .cons k2 v2 tl, hv, h => by
    obtain ⟨hv2, htl⟩ := h
    rw [insertKV]
    by_cases hlt : bytesLt (utf8Encode k) (utf8Encode k2) = true
    · rw [if_pos hlt]
      exact ⟨hv, hv2, htl⟩
    · rw [if_neg hlt]
      by_cases heq : utf8Encode k = utf8Encode k2
      · rw [if_pos heq]
        exact ⟨hv, htl⟩
      · rw [if_neg heq]
        exact ⟨hv2, JsonMembersWF_insertKV hv htl⟩



/-! ### String and number codec lemmas (toward C6) -/

theorem hexVal_hexDigit {x : Nat} (h : x < 16) : hexVal (hexDigit x) = some x := by
  rw [hexDigit, hexVal]
  by_cases h10 : x < 10
  · rw [if_pos h10, if_pos (by omega)]
    simp
  · rw [if_neg h10, if_neg (by omega), if_pos (by omega)]
    simp
    omega

/-- One escaped character parses back to itself, whatever follows. -/
theorem parseJStr_escape (c : Nat) (l : List Nat) :
    parseJStr (escapeChar c ++ l) = (parseJStr l).map (fun p => (c :: p.1, p.2)) := by
  by_cases h22 : c = 0x22
  · subst h22
    show parseJStr (0x5C :: 0x22 :: l) = _
    simp only [parseJStr]
    cases hp : parseJStr l with
    | none => rfl
    | some p => cases p; rfl
  · by_cases h5C : c = 0x5C
    · subst h5C
      show parseJStr (0x5C :: 0x5C :: l) = _
      simp only [parseJStr]
      cases hp : parseJStr l with
      | none => rfl
      | some p => cases p; rfl
    · by_cases h08 : c = 0x08
      · subst h08
        show parseJStr (0x5C :: 0x62 :: l) = _
        simp only [parseJStr]
        cases hp : parseJStr l with
        | none => rfl
        | some p => cases p; rfl
      · by_cases h09 : c = 0x09
        · subst h09
          show parseJStr (0x5C :: 0x74 :: l) = _
          simp only [parseJStr]
          cases hp : parseJStr l with
          | none => rfl
          | some p => cases p; rfl
        · by_cases h0A : c = 0x0A
          · subst h0A
            show parseJStr (0x5C :: 0x6E :: l) = _
            simp only [parseJStr]
            cases hp : parseJStr l with
            | none => rfl
            | some p => cases p; rfl
          · by_cases h0C : c = 0x0C
            · subst h0C
              show parseJStr (0x5C :: 0x66 :: l) = _
              simp only [parseJStr]
              cases hp : parseJStr l with
              | none => rfl
              | some p => cases p; rfl
            · by_cases h0D : c = 0x0D
              · subst h0D
                show parseJStr (0x5C :: 0x72 :: l) = _
                simp only [parseJStr]
                cases hp : parseJStr l with
                | none => rfl
                | some p => cases p; rfl
              · by_cases h20 : c < 0x20
                · have he : escapeChar c =
                      [0x5C, 0x75, 0x30, 0x30, hexDigit (c / 16), hexDigit (c % 16)] := by
                    rw [escapeChar, if_neg h22, if_neg h5C, if_neg h08, if_neg h09,
                      if_neg h0A, if_neg h0C, if_neg h0D, if_pos h20]
                  rw [he]
                  simp only [List.cons_append, List.nil_append]
                  simp only [parseJStr, hexVal_hexDigit (show c / 16 < 16 by omega),
                    hexVal_hexDigit (show c % 16 < 16 by omega),
                    show hexVal 0x30 = some 0 from rfl]
                  rw [if_pos (Or.inl
                    (show ((0 * 16 + 0) * 16 + c / 16) * 16 + c % 16 < 0xD800 by omega))]
                  rw [show ((0 * 16 + 0) * 16 + c / 16) * 16 + c % 16 = c by omega]
                  cases hp : parseJStr l with
                  | none => rfl
                  | some p => cases p; rfl
                · have he : escapeChar c = [c] := by
                    rw [escapeChar, if_neg h22, if_neg h5C, if_neg h08, if_neg h09,
                      if_neg h0A, if_neg h0C, if_neg h0D, if_neg h20]
                  rw [he]
                  simp only [List.cons_append, List.nil_append]
                  simp only [parseJStr, h22, h5C, if_neg h20]
                  cases hp : parseJStr l with
                  | none => rfl
                  | some p => cases p; rfl

/-- The string codec round trip: an escaped string followed by the
closing quote parses back exactly. -/
theorem rt_str : ∀ (s l : List Nat),
    parseJStr ((s.map escapeChar).flatten ++ 0x22 :: l) = some (s, l)
  | [], l => by
    simp only [List.map_nil, List.flatten_nil, List.nil_append]
    simp only [parseJStr]
  | c :: t, l => by
    simp only [List.map_cons, List.flatten_cons, List.append_assoc]
    rw [parseJStr_escape c, rt_str t l]
    rfl

theorem numTail_delim {v : Nat} {rest : List Nat} (h : numDelim rest) :
    numTail v rest = some (v, rest) := by
  cases rest with
  | nil => rfl
  | cons c r2 =>
    rw [numTail]
    rw [if_neg (by
      rintro (hc | hc | hc)
      · exact h.2.1 hc
      · exact h.2.2.1 hc
      · exact h.2.2.2 hc)]

theorem takeWhile_digits_append {ds rest : List Nat} (hd : ∀ c ∈ ds, isDig c = true)
    (hr : numDelim rest) :
    (ds ++ rest).takeWhile isDig = ds ∧ (ds ++ rest).dropWhile isDig = rest := by
  induction ds with
  | nil =>
    simp only [List.nil_append]
    cases rest with
    | nil => exact ⟨rfl, rfl⟩
    | cons c r2 =>
      rw [List.takeWhile_cons_of_neg (by simp [hr.1]),
        List.dropWhile_cons_of_neg (by simp [hr.1])]
      exact ⟨rfl, rfl⟩
  | cons c t ih =>
    have hc : isDig c = true := hd c (List.mem_cons_self _ _)
    obtain ⟨h1, h2⟩ := ih (fun x hx => hd x (List.mem_cons_of_mem _ hx))
    rw [List.cons_append, List.takeWhile_cons_of_pos hc, List.dropWhile_cons_of_pos hc,
      h1, h2]
    exact ⟨rfl, rfl⟩

theorem natDigits_head (m : Nat) :
    ∃ c t, natDigits m = c :: t ∧ isDig c = true ∧ (0 < m → c ≠ 0x30) := by
  induction m using Nat.strong_induction_on with
  | _ m ih =>
    by_cases h10 : m < 10
    · refine ⟨0x30 + m, [], ?_, ?_, ?_⟩
      · rw [natDigits_unfold, if_pos h10]
        simp
        omega
      · simp only [isDig, Bool.and_eq_true, decide_eq_true_eq]
        omega
      · intro hm
        omega
    · obtain ⟨c, t, hct, hdig, hz⟩ := ih (m / 10) (by omega)
      refine ⟨c, t ++ [0x30 + m % 10], ?_, hdig, fun _ => hz (by omega)⟩
      rw [natDigits_unfold, if_neg h10, hct]
      rfl

theorem rt_magnitude (m : Nat) (rest : List Nat) (hr : numDelim rest) :
    parseNumMag (natDigits m ++ rest) = some (m, rest) := by
  by_cases hm : m = 0
  · subst hm
    rw [show natDigits 0 = [0x30] from rfl]
    cases rest with
    | nil => rfl
    | cons d r2 =>
      show parseNumMag (0x30 :: d :: r2) = _
      simp only [parseNumMag, if_true]
      rw [if_neg (by rw [hr.1]; simp)]
      exact numTail_delim hr
  · obtain ⟨c, t, hct, hdigc, hzc⟩ := natDigits_head m
    have hc0 : c ≠ 0x30 := hzc (by omega)
    have htd : ∀ x ∈ t, isDig x = true := by
      intro x hx
      exact natDigits_all_digits m x (by rw [hct]; exact List.mem_cons_of_mem _ hx)
    obtain ⟨hsp1, hsp2⟩ := takeWhile_digits_append htd hr
    rw [hct, List.cons_append]
    simp only [parseNumMag]
    rw [if_neg hc0, if_pos hdigc, hsp1, hsp2]
    rw [show digitsVal (c :: t) = m from by rw [← hct]; exact digitsVal_natDigits m]
    exact numTail_delim hr

theorem rt_num (n : Int) (rest : List Nat) (h1 : -(2 ^ 63 : Int) ≤ n) (h2 : n < 2 ^ 64)
    (hr : numDelim rest) : parseJNum (serNum n ++ rest) = some (n, rest) := by
  by_cases hneg : n < 0
  · rw [serNum, if_pos hneg, List.cons_append]
    simp only [parseJNum]
    rw [rt_magnitude n.natAbs rest hr]
    show (if n.natAbs ≤ 2 ^ 63 then some (-(n.natAbs : Int), rest) else none) = some (n, rest)
    rw [if_pos (by omega)]
    have : -((n.natAbs : Nat) : Int) = n := by omega
    rw [this]
  · rw [serNum, if_neg hneg]
    obtain ⟨c, t, hct, hdigc, hzc⟩ := natDigits_head n.toNat
    have hc45 : c ≠ 0x2D := by
      simp only [isDig, Bool.and_eq_true, decide_eq_true_eq] at hdigc
      omega
    rw [hct, List.cons_append]
    unfold parseJNum
    split
    · rename_i r heq
      injection heq with ha hb
      exact absurd ha hc45
    · rw [show c :: (t ++ rest) = natDigits n.toNat ++ rest from by rw [hct]; rfl]
      rw [rt_magnitude n.toNat rest hr]
      show (if n.toNat < 2 ^ 64 then some ((n.toNat : Int), rest) else none) = some (n, rest)
      rw [if_pos (by omega)]
      have : ((n.toNat : Nat) : Int) = n := by omega
      rw [this]

/-- Every serialized value starts with a character that is neither JSON
whitespace nor a closing bracket or comma. -/
theorem serJson_head (v : Json) : ∃ c t, serJson v = c :: t ∧
    ¬ (c = 0x20 ∨ c = 0x09 ∨ c = 0x0A ∨ c = 0x0D) ∧ c ≠ 0x5D ∧ c ≠ 0x7D := by
  cases v with
  | null => exact ⟨0x6E, _, rfl, by omega, by omega, by omega⟩
  | bool b =>
    cases b with
    | true => exact ⟨0x74, _, rfl, by omega, by omega, by omega⟩
    | false => exact ⟨0x66, _, rfl, by omega, by omega, by omega⟩
  | num n =>
    show ∃ c t, serNum n = c :: t ∧ _
    rw [serNum]
    by_cases hneg : n < 0
    · rw [if_pos hneg]
      exact ⟨0x2D, _, rfl, by omega, by omega, by omega⟩
    · rw [if_neg hneg]
      obtain ⟨c, t, hct, hdigc, -⟩ := natDigits_head n.toNat
      simp only [isDig, Bool.and_eq_true, decide_eq_true_eq] at hdigc
      exact ⟨c, t, hct, by omega, by omega, by omega⟩
  | str s => exact ⟨0x22, _, rfl, by omega, by omega, by omega⟩
  | arr xs => exact ⟨0x5B, _, rfl, by omega, by omega, by omega⟩
  | obj ms => exact ⟨0x7B, _, rfl, by omega, by omega, by omega⟩

theorem skipJWs_cons_not_ws {c : Nat} (l : List Nat)
    (h : ¬ (c = 0x20 ∨ c = 0x09 ∨ c = 0x0A ∨ c = 0x0D)) :
    skipJWs (c :: l) = c :: l := by
  rw [skipJWs, if_neg h]

/-- No whitespace to skip in front of a serialized value. -/
theorem skipJWs_serJson (v : Json) (x : List Nat) :
    skipJWs (serJson v ++ x) = serJson v ++ x := by
  obtain ⟨c, t, hct, hws, -, -⟩ := serJson_head v
  rw [hct, List.cons_append, skipJWs_cons_not_ws _ hws]



/-! ### The serializer/deserializer round trip (toward C6) -/

theorem skipJWs_cons (c : Nat) (l : List Nat) :
    skipJWs (c :: l) =
      if c = 0x20 ∨ c = 0x09 ∨ c = 0x0A ∨ c = 0x0D then skipJWs l else c :: l := rfl

theorem numDelim_of (c : Nat) (l : List Nat) (h1 : isDig c = false) (h2 : c ≠ 0x2E)
    (h3 : c ≠ 0x65) (h4 : c ≠ 0x45) : numDelim (c :: l) := ⟨h1, h2, h3, h4⟩

theorem serJson_len_pos (v : Json) : 1 ≤ (serJson v).length := by
  obtain ⟨c, t, hct, -, -, -⟩ := serJson_head v
  rw [hct]
  simp

/-- A nonempty serialized element list starts like its first value. -/
theorem serList_head (x : Json) (tl : JsonList) : ∃ c t,
    serList (JsonList.cons x tl) = c :: t ∧
    ¬ (c = 0x20 ∨ c = 0x09 ∨ c = 0x0A ∨ c = 0x0D) ∧ c ≠ 0x5D ∧ c ≠ 0x7D := by
  obtain ⟨c, t, hct, hws, h1, h2⟩ := serJson_head x
  cases tl with
  | nil =>
    refine ⟨c, t, ?_, hws, h1, h2⟩
    rw [show serList (JsonList.cons x JsonList.nil) = serJson x from rfl, hct]
  | cons y tl2 =>
    refine ⟨c, t ++ 0x2C :: serList (JsonList.cons y tl2), ?_, hws, h1, h2⟩
    rw [show serList (JsonList.cons x (JsonList.cons y tl2)) =
      serJson x ++ 0x2C :: serList (JsonList.cons y tl2) from rfl, hct]
    rfl

/-- A nonempty serialized member list starts with the key's quote. -/
theorem serMembers_cons_shape (k : List Nat) (v : Json) (tl : JsonMembers) :
    ∃ t, serMembers (JsonMembers.cons k v tl) = 0x22 :: t := by
  cases tl with
  | nil =>
    refine ⟨(k.map escapeChar).flatten ++ (0x22 :: 0x3A :: serJson v), ?_⟩
    rw [show serMembers (JsonMembers.cons k v JsonMembers.nil) =
      serStr k ++ 0x3A :: serJson v from rfl, serStr]
    simp
  | cons k2 v2 tl2 =>
    refine ⟨(k.map escapeChar).flatten ++ (0x22 :: 0x3A :: (serJson v ++
      0x2C :: serMembers (JsonMembers.cons k2 v2 tl2))), ?_⟩
    rw [show serMembers (JsonMembers.cons k v (JsonMembers.cons k2 v2 tl2)) =
      serStr k ++ 0x3A :: serJson v ++
        0x2C :: serMembers (JsonMembers.cons k2 v2 tl2) from rfl, serStr]
    simp

theorem serStr_append (k X : List Nat) :
    serStr k ++ X = 0x22 :: ((k.map escapeChar).flatten ++ (0x22 :: X)) := by
  simp [serStr]

mutual

/-- `serde_json` round trip at the value level: parsing a compact
serialization (with a number-delimiting remainder) recovers the value. -/
theorem rt_val : ∀ (v : Json) (fuel : Nat) (rest : List Nat), JsonWF v →
    (serJson v).length < fuel → numDelim rest →
    parseVal fuel (serJson v ++ rest) = some (v, rest)
  | .null, fuel, rest, _, hf, _ => by
    cases fuel with
    | zero => exact absurd hf (by omega)
    | succ f =>
      show parseVal (f + 1) (0x6E :: 0x75 :: 0x6C :: 0x6C :: rest) = _
      simp only [parseVal, skipJWs_cons]
      norm_num [skipJWs_cons]
  | .bool true, fuel, rest, _, hf, _ => by
    cases fuel with
    | zero => exact absurd hf (by omega)
    | succ f =>
      show parseVal (f + 1) (0x74 :: 0x72 :: 0x75 :: 0x65 :: rest) = _
      simp only [parseVal, skipJWs_cons]
      norm_num [skipJWs_cons]
  | .bool false, fuel, rest, _, hf, _ => by
    cases fuel with
    | zero => exact absurd hf (by omega)
    | succ f =>
      show parseVal (f + 1) (0x66 :: 0x61 :: 0x6C :: 0x73 :: 0x65 :: rest) = _
      simp only [parseVal, skipJWs_cons]
      norm_num [skipJWs_cons]
  | .num n, fuel, rest, hwf, hf, hr => by
    cases fuel with
    | zero => exact absurd hf (by omega)
    | succ f =>
      obtain ⟨c, t, hct, hws, hd1, hd2⟩ := serJson_head (Json.num n)
      have hcd : c = 0x2D ∨ isDig c = true := by
        have hser : serJson (Json.num n) = serNum n := rfl
        rw [hser, serNum] at hct
        by_cases hneg : n < 0
        · rw [if_pos hneg] at hct
          injection hct with ha hb
          exact Or.inl ha.symm
        · rw [if_neg hneg] at hct
          obtain ⟨c2, t2, hct2, hdig2, -⟩ := natDigits_head n.toNat
          rw [hct2] at hct
          injection hct with ha hb
          exact Or.inr (ha ▸ hdig2)
      have hnum : c :: t = serNum n := by rw [← hct]; rfl
      have hne : ¬ c = 0x6E ∧ ¬ c = 0x74 ∧ ¬ c = 0x66 ∧
          ¬ c = 0x22 ∧ ¬ c = 0x5B ∧ ¬ c = 0x7B := by
        rcases hcd with rfl | hdig
        · exact ⟨by omega, by omega, by omega, by omega, by omega, by omega⟩
        · simp only [isDig, Bool.and_eq_true, decide_eq_true_eq] at hdig
          exact ⟨by omega, by omega, by omega, by omega, by omega, by omega⟩
      rw [show serJson (Json.num n) ++ rest = c :: (t ++ rest) from by rw [hct]; rfl]
      simp only [parseVal, skipJWs_cons,
        if_neg (show ¬ (c = 0x20 ∨ c = 0x09 ∨ c = 0x0A ∨ c = 0x0D) from hws)]
      rw [if_neg hne.1, if_neg hne.2.1, if_neg hne.2.2.1, if_neg hne.2.2.2.1,
        if_neg hne.2.2.2.2.1, if_neg hne.2.2.2.2.2, if_pos hcd]
      rw [show c :: (t ++ rest) = serNum n ++ rest from by rw [← List.cons_append, hnum]]
      rw [rt_num n rest hwf.1 hwf.2 hr]
  | .str s, fuel, rest, _, hf, _ => by
    cases fuel with
    | zero => exact absurd hf (by omega)
    | succ f =>
      rw [show serJson (Json.str s) ++ rest =
        0x22 :: ((s.map escapeChar).flatten ++ (0x22 :: rest)) from by
          simp [serJson, serStr]]
      simp only [parseVal, skipJWs_cons]
      norm_num [skipJWs_cons]
      rw [rt_str s rest]
  | .arr .nil, fuel, rest, _, hf, _ => by
    cases fuel with
    | zero => exact absurd hf (by omega)
    | succ f =>
      show parseVal (f + 1) (0x5B :: 0x5D :: rest) = _
      simp only [parseVal, skipJWs_cons]
      norm_num [skipJWs_cons]
  | .arr (.cons x tl), fuel, rest, hwf, hf, _ => by
    cases fuel with
    | zero => exact absurd hf (by omega)
    | succ f =>
      obtain ⟨c, t, hct, hws, hd1, hd2⟩ := serList_head x tl
      have hL : (serJson (Json.arr (JsonList.cons x tl))).length =
          (serList (JsonList.cons x tl)).length + 2 := by
        simp [serJson]
      rw [show serJson (Json.arr (JsonList.cons x tl)) ++ rest =
        0x5B :: (serList (JsonList.cons x tl) ++ 0x5D :: rest) from by simp [serJson]]
      simp only [parseVal, skipJWs_cons]
      norm_num [skipJWs_cons]
      rw [show serList (JsonList.cons x tl) ++ 0x5D :: rest =
        c :: (t ++ 0x5D :: rest) from by rw [hct]; rfl]
      rw [skipJWs_cons, if_neg hws]
      split
      · rename_i r2 heq
        injection heq with ha hb
        exact absurd ha hd1
      · rw [show c :: (t ++ 0x5D :: rest) =
          serList (JsonList.cons x tl) ++ 0x5D :: rest from by rw [hct]; rfl]
        rw [rt_elems x tl f rest hwf (by omega)]
  | .obj .nil, fuel, rest, _, hf, _ => by
    cases fuel with
    | zero => exact absurd hf (by omega)
    | succ f =>
      show parseVal (f + 1) (0x7B :: 0x7D :: rest) = _
      simp only [parseVal, skipJWs_cons]
      norm_num [skipJWs_cons]
  | .obj (.cons k v tl), fuel, rest, hwf, hf, _ => by
    cases fuel with
    | zero => exact absurd hf (by omega)
    | succ f =>
      obtain ⟨t, hct⟩ := serMembers_cons_shape k v tl
      have hL : (serJson (Json.obj (JsonMembers.cons k v tl))).length =
          (serMembers (JsonMembers.cons k v tl)).length + 2 := by
        simp [serJson]
      rw [show serJson (Json.obj (JsonMembers.cons k v tl)) ++ rest =
        0x7B :: (serMembers (JsonMembers.cons k v tl) ++ 0x7D :: rest) from by
          simp [serJson]]
      simp only [parseVal, skipJWs_cons]
      norm_num [skipJWs_cons]
      rw [show serMembers (JsonMembers.cons k v tl) ++ 0x7D :: rest =
        0x22 :: (t ++ 0x7D :: rest) from by rw [hct]; rfl]
      rw [skipJWs_cons, if_neg (by omega)]
      split
      · rename_i r2 heq
        injection heq with ha hb
        exact absurd ha (by omega)
      · rw [show (0x22 : Nat) :: (t ++ 0x7D :: rest) =
          serMembers (JsonMembers.cons k v tl) ++ 0x7D :: rest from by rw [hct]; rfl]
        rw [rt_members k v tl JsonMembers.nil f rest hwf.2 hwf.1 (by omega)]
        rfl
  termination_by v _ _ _ _ _ => sizeOf v

/-- Round trip for a nonempty array tail. -/
theorem rt_elems : ∀ (x : Json) (tl : JsonList) (fuel : Nat) (rest : List Nat),
    JsonListWF (JsonList.cons x tl) →
    (serList (JsonList.cons x tl)).length + 1 < fuel →
    parseElems fuel (serList (JsonList.cons x tl) ++ 0x5D :: rest) =
      some (JsonList.cons x tl, rest)
  | x, tl, fuel, rest, hwf, hf => by
    cases fuel with
    | zero => exact absurd hf (by omega)
    | succ f =>
      obtain ⟨hx, htl⟩ := hwf
      cases tl with
      | nil =>
        rw [show serList (JsonList.cons x JsonList.nil) = serJson x from rfl] at hf ⊢
        simp only [parseElems]
        rw [rt_val x f (0x5D :: rest) hx (by omega)
          (numDelim_of _ _ (by decide) (by omega) (by omega) (by omega))]
        norm_num [skipJWs_cons]
      | cons y tl2 =>
        obtain ⟨c2, t2, hct2, hws2, he1, he2⟩ := serList_head y tl2
        have hLx := serJson_len_pos x
        have hLt : 1 ≤ (serList (JsonList.cons y tl2)).length := by
          rw [hct2]
          simp
        have hLsum : (serList (JsonList.cons x (JsonList.cons y tl2))).length =
            (serJson x).length + 1 + (serList (JsonList.cons y tl2)).length := by
          rw [show serList (JsonList.cons x (JsonList.cons y tl2)) =
            serJson x ++ 0x2C :: serList (JsonList.cons y tl2) from rfl]
          simp
          omega
        rw [show serList (JsonList.cons x (JsonList.cons y tl2)) ++ 0x5D :: rest =
          serJson x ++ (0x2C :: (serList (JsonList.cons y tl2) ++ 0x5D :: rest)) from by
            rw [show serList (JsonList.cons x (JsonList.cons y tl2)) =
              serJson x ++ 0x2C :: serList (JsonList.cons y tl2) from rfl]
            simp]
        simp only [parseElems]
        rw [rt_val x f _ hx (by omega)
          (numDelim_of _ _ (by decide) (by omega) (by omega) (by omega))]
        norm_num [skipJWs_cons]
        rw [show serList (JsonList.cons y tl2) ++ 0x5D :: rest =
          c2 :: (t2 ++ 0x5D :: rest) from by rw [hct2]; rfl]
        rw [skipJWs_cons, if_neg hws2]
        split
        · rename_i r2 heq
          injection heq with ha hb
          exact absurd ha he1
        · rw [show c2 :: (t2 ++ 0x5D :: rest) =
            serList (JsonList.cons y tl2) ++ 0x5D :: rest from by rw [hct2]; rfl]
          rw [rt_elems y tl2 f rest htl (by omega)]
  termination_by x tl _ _ _ _ => sizeOf (JsonList.cons x tl)

/-- Round trip for a nonempty member list: the members re-insert into
the accumulated map, appending at the end when the whole map is sorted. -/
theorem rt_members : ∀ (k : List Nat) (v : Json) (tl : JsonMembers) (acc : JsonMembers)
    (fuel : Nat) (rest : List Nat),
    JsonMembersWF (JsonMembers.cons k v tl) →
    memSorted (memAppend acc (JsonMembers.cons k v tl)) →
    (serMembers (JsonMembers.cons k v tl)).length + 1 < fuel →
    parseMembers fuel acc (serMembers (JsonMembers.cons k v tl) ++ 0x7D :: rest) =
      some (memAppend acc (JsonMembers.cons k v tl), rest)
  | k, v, tl, acc, fuel, rest, hwf, hs, hf => by
    cases fuel with
    | zero => exact absurd hf (by omega)
    | succ f =>
      obtain ⟨hv, htl⟩ := hwf
      have hLv := serJson_len_pos v
      cases tl with
      | nil =>
        have hLm : (serMembers (JsonMembers.cons k v JsonMembers.nil)).length =
            (serStr k).length + 1 + (serJson v).length := by
          rw [show serMembers (JsonMembers.cons k v JsonMembers.nil) =
            serStr k ++ 0x3A :: serJson v from rfl]
          simp
          omega
        have hLk : (serStr k).length = (k.map escapeChar).flatten.length + 2 := by
          simp [serStr]
        rw [show serMembers (JsonMembers.cons k v JsonMembers.nil) ++ 0x7D :: rest =
          0x22 :: ((k.map escapeChar).flatten ++
            (0x22 :: (0x3A :: (serJson v ++ 0x7D :: rest)))) from by
            rw [show serMembers (JsonMembers.cons k v JsonMembers.nil) =
              serStr k ++ 0x3A :: serJson v from rfl, serStr]
            simp]
        simp only [parseMembers, skipJWs_cons]
        norm_num [skipJWs_cons]
        rw [rt_str k (0x3A :: (serJson v ++ 0x7D :: rest))]
        norm_num [skipJWs_cons]
        rw [rt_val v f (0x7D :: rest) hv (by omega)
          (numDelim_of _ _ (by decide) (by omega) (by omega) (by omega))]
        norm_num [skipJWs_cons]
        rw [insertKV_append_of_below (memSorted_append_below hs)]
      | cons k2 v2 tl2 =>
        obtain ⟨t3, hct3⟩ := serMembers_cons_shape k2 v2 tl2
        have hLt : 1 ≤ (serMembers (JsonMembers.cons k2 v2 tl2)).length := by
          rw [hct3]
          simp
        have hLm : (serMembers (JsonMembers.cons k v (JsonMembers.cons k2 v2 tl2))).length =
            (serStr k).length + 1 + (serJson v).length + 1 +
              (serMembers (JsonMembers.cons k2 v2 tl2)).length := by
          rw [show serMembers (JsonMembers.cons k v (JsonMembers.cons k2 v2 tl2)) =
            serStr k ++ 0x3A :: serJson v ++
              0x2C :: serMembers (JsonMembers.cons k2 v2 tl2) from rfl]
          simp
          omega
        have hLk : (serStr k).length = (k.map escapeChar).flatten.length + 2 := by
          simp [serStr]
        rw [show serMembers (JsonMembers.cons k v (JsonMembers.cons k2 v2 tl2)) ++
            0x7D :: rest =
          0x22 :: ((k.map escapeChar).flatten ++
            (0x22 :: (0x3A :: (serJson v ++
              (0x2C :: (serMembers (JsonMembers.cons k2 v2 tl2) ++
                0x7D :: rest)))))) from by
            rw [show serMembers (JsonMembers.cons k v (JsonMembers.cons k2 v2 tl2)) =
              serStr k ++ 0x3A :: serJson v ++
                0x2C :: serMembers (JsonMembers.cons k2 v2 tl2) from rfl, serStr]
            simp]
        simp only [parseMembers, skipJWs_cons]
        norm_num [skipJWs_cons]
        rw [rt_str k _]
        norm_num [skipJWs_cons]
        rw [rt_val v f _ hv (by omega)
          (numDelim_of _ _ (by decide) (by omega) (by omega) (by omega))]
        norm_num [skipJWs_cons]
        rw [show serMembers (JsonMembers.cons k2 v2 tl2) ++ 0x7D :: rest =
          0x22 :: (t3 ++ 0x7D :: rest) from by rw [hct3]; rfl]
        rw [skipJWs_cons]
        norm_num [skipJWs_cons]
        rw [show (0x22 : Nat) :: (t3 ++ 0x7D :: rest) =
          serMembers (JsonMembers.cons k2 v2 tl2) ++ 0x7D :: rest from by rw [hct3]; rfl]
        rw [insertKV_append_of_below (memSorted_append_below hs)]
        have hs2 : memSorted (memAppend
            (memAppend acc (JsonMembers.cons k v JsonMembers.nil))
            (JsonMembers.cons k2 v2 tl2)) := by
          rw [memAppend_assoc]
          exact hs
        rw [rt_members k2 v2 tl2 (memAppend acc (JsonMembers.cons k v JsonMembers.nil))
          f rest htl hs2 (by omega)]
        rw [memAppend_assoc]
        rfl
  termination_by k v tl _ _ _ _ _ _ => sizeOf (JsonMembers.cons k v tl)

end


/-! ### Parsed values are well-formed, and the C6 round trip -/

/-- `serde_json` only produces integers in the exactly-decoded ranges. -/
theorem parseJNum_range : ∀ (cs : List Nat) (n : Int) (r : List Nat),
    parseJNum cs = some (n, r) → -(2 ^ 63 : Int) ≤ n ∧ n < 2 ^ 64 := by
  intro cs n r h
  rw [parseJNum.eq_def] at h
  split at h
  · split at h
    · rename_i v rest heq
      split at h
      · rename_i hv
        injection h with h1
        injection h1 with ha hb
        constructor <;> omega
      · exact absurd h (by simp)
    · exact absurd h (by simp)
  · split at h
    · rename_i v rest heq
      split at h
      · rename_i hv
        injection h with h1
        injection h1 with ha hb
        constructor <;> omega
      · exact absurd h (by simp)
    · exact absurd h (by simp)

mutual

theorem parseVal_wf : ∀ (fuel : Nat) (cs : List Nat) (v : Json) (r : List Nat),
    parseVal fuel cs = some (v, r) → JsonWF v
  | 0, _, _, _, h => absurd h (by simp [parseVal])
  | fuel + 1, cs, v, r, h => by
    simp only [parseVal] at h
    repeat' split at h
    all_goals simp at h
    all_goals obtain ⟨ha, hb⟩ := h
    all_goals subst ha
    all_goals try trivial
    all_goals rename_i heq
    all_goals first
      | exact parseElems_wf fuel _ _ _ heq
      | exact parseMembers_wf fuel JsonMembers.nil _ _ _ heq trivial trivial
      | exact parseJNum_range _ _ _ heq
  termination_by fuel _ _ _ _ => fuel

theorem parseElems_wf : ∀ (fuel : Nat) (cs : List Nat) (xs : JsonList) (r : List Nat),
    parseElems fuel cs = some (xs, r) → JsonListWF xs
  | 0, _, _, _, h => absurd h (by simp [parseElems])
  | fuel + 1, cs, xs, r, h => by
    simp only [parseElems] at h
    repeat' split at h
    all_goals simp at h
    all_goals obtain ⟨ha, hb⟩ := h
    all_goals subst ha
    all_goals first
      | exact ⟨parseVal_wf fuel _ _ _ (by assumption), trivial⟩
      | exact ⟨parseVal_wf fuel _ _ _ (by assumption),
          parseElems_wf fuel _ _ _ (by assumption)⟩
  termination_by fuel _ _ _ _ => fuel

theorem parseMembers_wf : ∀ (fuel : Nat) (acc : JsonMembers) (cs : List Nat)
    (ms : JsonMembers) (r : List Nat),
    parseMembers fuel acc cs = some (ms, r) → memSorted acc → JsonMembersWF acc →
    memSorted ms ∧ JsonMembersWF ms
  | 0, _, _, _, _, h, _, _ => absurd h (by simp [parseMembers])
  | fuel + 1, acc, cs, ms, r, h, hs, hw => by
    simp only [parseMembers] at h
    repeat' split at h
    all_goals try simp at h
    all_goals first
      | exact parseMembers_wf fuel _ _ _ _ h (memSorted_insertKV hs)
          (JsonMembersWF_insertKV (parseVal_wf fuel _ _ _ (by assumption)) hw)
      | (obtain ⟨ha, hb⟩ := h
         subst ha
         exact ⟨memSorted_insertKV hs, JsonMembersWF_insertKV
           (parseVal_wf fuel _ _ _ (by assumption)) hw⟩)
  termination_by fuel _ _ _ _ _ _ _ => fuel

end

theorem jsonParse_wf (s : List Nat) (v : Json) (h : jsonParse s = some v) : JsonWF v := by
  rw [jsonParse] at h
  split at h
  · rename_i v2 r heq
    split at h
    · injection h with h1
      subst h1
      exact parseVal_wf _ _ _ _ heq
    · exact absurd h (by simp)
  · exact absurd h (by simp)

theorem jsonParse_serJson (v : Json) (hwf : JsonWF v) :
    jsonParse (serJson v ++ [10]) = some v := by
  rw [jsonParse]
  have hrt := rt_val v ((serJson v ++ [10]).length + 1) [10] hwf
    (by simp only [List.length_append, List.length_cons, List.length_nil]; omega)
    (numDelim_of _ _ (by decide) (by omega) (by omega) (by omega))
  rw [hrt]
  rfl

/-- C6: in JSON-lines (structural) mode, a drained message whose payload
parses as a JSON value `v` contributes exactly one log line (one log
`write_all` per drained message), that line is the compact serialization
of `v` followed by a newline, and parsing the line back as JSON returns
a value deeply equal to `v`. -/
theorem c6_structural_roundtrip (buffer chunk : List Nat) (logOk : Nat → Bool) (idx : Nat)
    (m : Msg) (v : Json) (hm : m ∈ (drainMessages (addData buffer chunk)).1)
    (hv : jsonParse m.jsonPayload = some v) :
    (runChannel true logOk ⟨buffer, idx⟩ [ReadEvent.data chunk true true]).logOps =
      ((drainMessages (addData buffer chunk)).1).map
        (fun m2 => SinkOp.write (utf8Encode (logLine m2))) ∧
    logLine m = serJson v ++ [10] ∧
    jsonParse (logLine m) = some v := by
  have hwf := jsonParse_wf _ _ hv
  refine ⟨?_, ?_, ?_⟩
  · simp [runChannel, logMsgs_ops]
  · rw [logLine, hv]
  · rw [logLine, hv]
    exact jsonParse_serJson v hwf

/-- Witness for C6: a complete message with the JSON body `true`. -/
theorem c6_structural_roundtrip_witness :
    (runChannel true (fun _ => true) ⟨[], 0⟩
        [ReadEvent.data (ascii "Content-Length: 4" ++ [13, 10, 13, 10] ++ ascii "true")
          true true]).logOps =
      ((drainMessages (addData []
          (ascii "Content-Length: 4" ++ [13, 10, 13, 10] ++ ascii "true"))).1).map
        (fun m2 => SinkOp.write (utf8Encode (logLine m2))) ∧
    logLine (Msg.mk (ascii "Content-Length: 4" ++ [13, 10, 13, 10] ++ ascii "true")
        (ascii "true")) = serJson (Json.bool true) ++ [10] ∧
    jsonParse (logLine (Msg.mk
        (ascii "Content-Length: 4" ++ [13, 10, 13, 10] ++ ascii "true")
        (ascii "true"))) = some (Json.bool true) :=
  c6_structural_roundtrip [] (ascii "Content-Length: 4" ++ [13, 10, 13, 10] ++ ascii "true")
    (fun _ => true) 0
    (Msg.mk (ascii "Content-Length: 4" ++ [13, 10, 13, 10] ++ ascii "true") (ascii "true"))
    (Json.bool true) (by decide) (by rfl)

end LspProxy
